import Mathlib

/-!
# libecl: the string collection (`libutil/src/stringlist.c`) and the summary variable
categories (`libecl/src/ecl_sum.h`)

A shallow embedding of `stringlist.c` and of `ecl_sum.h`. The header `ecl_sum.h` has the
enum of variable categories and the declarations of the query functions; their bodies are
not in the sources, and the summary set they work on is modelled from the specification
(see the section on the summary set).

Modelling conventions

* A `char *` is modelled by what it points to: `none` is `NULL`, `some t` is a string with
  contents `t`.  Two pointers to equal text are the same value.
* The contents do not say whether the `s` of a setter is the very pointer the list holds at
  the index of the call, as it is after `s = stringlist_iget (stringlist, index)`. The
  argument of a setter (`string_arg`) says it, because `stringlist_iset__` hands
  `strings[index]` to `util_safe_free` before it reads `s`: a string is not read intact
  after its release, the model reads `freed_contents` in its place.
* A C `int` is a Lean `Int`: sizes and indices are taken to stay in the range of `int`, and
  an allocation of a non-negative number of bytes succeeds.
* A C array is a `List`; an access outside the array is undefined behaviour (`Outcome.undefined`).
* `util_abort` ends the process: `Outcome.abort m` records the memory `m` at the call.
* Every call `util_safe_free (stringlist->strings[i])` is recorded in `Mem.released`, oldest
  first, as the slot `i` together with the string handed over.
* A counted `for` loop is a recursion on the number of iterations still to run.
* `printf` / `fprintf` output is not modelled.
* A list is well formed (`stringlist_type.wf`) when both arrays have `size` entries. The
  struct is opaque to callers, and the well-formed lists are the lists the functions of
  this file build (`wf_is_reachable`).
-/

/-! ## Definitions: `ecl_sum.h` -/

namespace EclSum

/-- The enum `ecl_sum_var_type` (ecl_sum.h:8), enumerators in the order of the header. -/
inductive ecl_sum_var_type where
  | ecl_sum_well_var
  | ecl_sum_region_var
  | ecl_sum_field_var
  | ecl_sum_group_var
  | ecl_sum_misc_var
  | ecl_sum_completion_var
  | ecl_sum_NOT_IMPLEMENTED_var
deriving DecidableEq, Repr

/-- The declaration of `ecl_sum_iget_var_type` (ecl_sum.h:12):
`ecl_sum_var_type ecl_sum_iget_var_type(const ecl_sum_type * , int )`. The header has no
body, and `ecl_sum_type` is an incomplete struct there, so the function is any function of
the declared type. -/
abbrev ecl_sum_iget_var_type_decl (ecl_sum_type : Type) : Type :=
  ecl_sum_type → Int → ecl_sum_var_type

/-! ### The summary set, from the specification

`ecl_sum.h` declares the query functions and leaves `struct ecl_sum_struct` incomplete; no
body is in the sources. What follows is the Key Catalog, the Value Store, the Query Layer
and the max/min scan as the specification describes them (sections 3, 4.1, 4.3, 4.5, 4.6
and 7). A `double` measurement is a rational here: values are stored, read back and
compared, never computed with. The Time Index is left out, no query below reads it. -/

/-- Modelled from the spec: the failure kinds `NotFound` and `OutOfRange` of section 7, the
two a query can end in. -/
inductive Failure where
  | NotFound
  | OutOfRange
deriving DecidableEq, Repr

/-- Modelled from the spec: "library callers receive a typed failure result" (section 7): a
query ends in a value or in a failure kind. -/
inductive Result (α : Type) where
  | ok (a : α)
  | fail (e : Failure)
deriving DecidableEq, Repr

/-- Composition of queries: the first failure is the failure of the whole. -/
def Result.bind {α β : Type} (x : Result α) (f : α → Result β) : Result β :=
  match x with
  | Result.ok a => f a
  | Result.fail e => Result.fail e

instance : Monad Result where
  pure := Result.ok
  bind := Result.bind

/-- Modelled from the spec: an entry of the Value Store (section 4.3), either the "absent"
sentinel or a measurement. -/
inductive Cell where
  | absent
  | value (v : ℚ)
deriving DecidableEq, Repr

/-- Modelled from the spec: what a variable is scoped to (section 3,
"entity_name_or_number"): a named well or group, a numbered region, or nothing for a
variable of the whole field. -/
inductive Entity where
  | named (name : String)
  | numbered (nr : Int)
  | whole_field
deriving DecidableEq, Repr

/-- Modelled from the spec: the symbolic key of a variable (sections 3 and 4.5): category,
entity, variable name and, for a completion variable, the completion number. -/
structure Key where
  category : ecl_sum_var_type
  entity : Entity
  var : String
  completion : Option Int
deriving DecidableEq, Repr

/-- Modelled from the spec: a registered variable (section 3): its key and its unit string;
its slot is its position in the catalog. -/
structure Variable where
  key : Key
  unit : String
deriving DecidableEq, Repr

/-- Modelled from the spec: the `SummarySet` behind the incomplete `ecl_sum_type` of
ecl_sum.h:7 (section 3): the Key Catalog, slots dense from zero in registration order, and
the Value Store, one row of cells per step. -/
structure ecl_sum_type where
  catalog : List Variable
  store : List (List Cell)
deriving DecidableEq, Repr

/-- Modelled from the spec: the search behind Key Catalog `resolve` and `register`
(section 4.1): the slot of the first catalog entry with key `k`, counted from `slot`. -/
def KeyCatalog.find (k : Key) : List Variable → Nat → Option Nat
  | [], _ => none
  | v :: rest, slot => if v.key = k then some slot else KeyCatalog.find k rest (slot + 1)

/-- Modelled from the spec: Key Catalog `resolve` (section 4.1): the slot of the key, or
`NotFound` "if no matching variable was registered". -/
def KeyCatalog.resolve (catalog : List Variable) (k : Key) : Result Int :=
  match KeyCatalog.find k catalog 0 with
  | some slot => Result.ok (slot : Int)
  | none => Result.fail Failure.NotFound

/-- Modelled from the spec: Key Catalog `register` (section 4.1): "assigns the next free
slot; re-registering an existing key returns the existing slot". A new slot gets an absent
cell in every row of the store. -/
def KeyCatalog.register (set : ecl_sum_type) (k : Key) (unit : String) :
    ecl_sum_type × Int :=
  match KeyCatalog.find k set.catalog 0 with
  | some slot => (set, (slot : Int))
  | none =>
    ({ catalog := set.catalog ++ [{ key := k, unit := unit }]
       store := set.store.map fun row => row ++ [Cell.absent] },
     (set.catalog.length : Int))

/-- Modelled from the spec: Value Store `get` (section 4.3): the cell at `(step, slot)`, or
`OutOfRange` "if either index is invalid". -/
def ValueStore.get (store : List (List Cell)) (step slot : Int) : Result Cell :=
  if step < 0 ∨ slot < 0 then Result.fail Failure.OutOfRange
  else
    match store[step.toNat]? with
    | none => Result.fail Failure.OutOfRange
    | some row =>
      match row[slot.toNat]? with
      | none => Result.fail Failure.OutOfRange
      | some c => Result.ok c

/-- Modelled from the spec: Value Store `append_rows` (section 4.3): "grows the table by
`count` steps, initializing all new cells to the absent sentinel". -/
def ValueStore.append_rows (set : ecl_sum_type) (count : Nat) : ecl_sum_type :=
  { set with
    store := set.store ++ List.replicate count (List.replicate set.catalog.length Cell.absent) }

/-- Modelled from the spec: the explicit setting of a cell (section 4.3, "until explicitly
set"), `OutOfRange` when the cell does not exist. -/
def ValueStore.set (set : ecl_sum_type) (step slot : Int) (v : ℚ) : Result ecl_sum_type :=
  match ValueStore.get set.store step slot with
  | Result.fail e => Result.fail e
  | Result.ok _ =>
    Result.ok { set with
      store := set.store.modify (fun row => row.set slot.toNat (Cell.value v)) step.toNat }

/-- Modelled from the spec: the key of a well variable, "by well name + variable name"
(section 4.5). -/
def well_key (well var : String) : Key :=
  { category := ecl_sum_var_type.ecl_sum_well_var, entity := Entity.named well, var := var,
    completion := none }

/-- Modelled from the spec: the key of a group variable, "by group name + variable name"
(section 4.5). -/
def group_key (group var : String) : Key :=
  { category := ecl_sum_var_type.ecl_sum_group_var, entity := Entity.named group, var := var,
    completion := none }

/-- Modelled from the spec: the key of a region variable, "by region number + variable
name" (section 4.5). -/
def region_key (region_nr : Int) (var : String) : Key :=
  { category := ecl_sum_var_type.ecl_sum_region_var, entity := Entity.numbered region_nr,
    var := var, completion := none }

/-- Modelled from the spec: the key of a field variable, "by variable name only"
(section 4.5). -/
def field_key (var : String) : Key :=
  { category := ecl_sum_var_type.ecl_sum_field_var, entity := Entity.whole_field, var := var,
    completion := none }

/-- Modelled from the spec: the key of a well-completion variable, "a compound of well name
+ completion number" (section 4.1), with the variable name. -/
def well_completion_key (well var : String) (cell_nr : Int) : Key :=
  { category := ecl_sum_var_type.ecl_sum_completion_var, entity := Entity.named well,
    var := var, completion := some cell_nr }

/-- Modelled from the spec: `ecl_sum_get_with_index` (declared ecl_sum.h:29, no body in the
sources): "raw access by slot index and step (bypasses name resolution)" (section 4.5). -/
def ecl_sum_get_with_index (ecl_sum : ecl_sum_type) (step index : Int) : Result Cell :=
  ValueStore.get ecl_sum.store step index

/-- Modelled from the spec: a typed getter of the Query Layer (section 4.5): it fails "with
`NotFound` if the composite key does not resolve, independent of step validity; step
validity is checked afterward and fails with `OutOfRange`". -/
def typed_get (ecl_sum : ecl_sum_type) (step : Int) (k : Key) : Result Cell :=
  match KeyCatalog.find k ecl_sum.catalog 0 with
  | none => Result.fail Failure.NotFound
  | some slot =>
    if step < 0 then Result.fail Failure.OutOfRange
    else
      match ecl_sum.store[step.toNat]? with
      | none => Result.fail Failure.OutOfRange
      | some row =>
        match row[slot]? with
        | none => Result.fail Failure.OutOfRange
        | some c => Result.ok c

/-- Modelled from the spec: `ecl_sum_get_well_var_index` (declared ecl_sum.h:20, no body in
the sources): Key Catalog `resolve` for a well variable. -/
def ecl_sum_get_well_var_index (ecl_sum : ecl_sum_type) (well var : String) : Result Int :=
  KeyCatalog.resolve ecl_sum.catalog (well_key well var)

/-- Modelled from the spec: `ecl_sum_get_region_var_index` (declared ecl_sum.h:21, no body
in the sources): Key Catalog `resolve` for a region variable. -/
def ecl_sum_get_region_var_index (ecl_sum : ecl_sum_type) (region_nr : Int) (var : String) :
    Result Int :=
  KeyCatalog.resolve ecl_sum.catalog (region_key region_nr var)

/-- Modelled from the spec: `ecl_sum_get_group_var_index` (declared ecl_sum.h:22, no body
in the sources): Key Catalog `resolve` for a group variable. -/
def ecl_sum_get_group_var_index (ecl_sum : ecl_sum_type) (group var : String) : Result Int :=
  KeyCatalog.resolve ecl_sum.catalog (group_key group var)

/-- Modelled from the spec: `ecl_sum_get_field_var_index` (declared ecl_sum.h:23, no body
in the sources): Key Catalog `resolve` for a field variable. -/
def ecl_sum_get_field_var_index (ecl_sum : ecl_sum_type) (var : String) : Result Int :=
  KeyCatalog.resolve ecl_sum.catalog (field_key var)

/-- Modelled from the spec: `ecl_sum_get_well_completion_var_index` (declared ecl_sum.h:24,
no body in the sources): Key Catalog `resolve` for a well-completion variable. -/
def ecl_sum_get_well_completion_var_index (ecl_sum : ecl_sum_type) (well var : String)
    (cell_nr : Int) : Result Int :=
  KeyCatalog.resolve ecl_sum.catalog (well_completion_key well var cell_nr)

/-- Modelled from the spec: `ecl_sum_get_well_var` (declared ecl_sum.h:25, no body in the
sources): "well variable at step, by well name + variable name" (section 4.5). -/
def ecl_sum_get_well_var (ecl_sum : ecl_sum_type) (step : Int) (well var : String) :
    Result Cell :=
  typed_get ecl_sum step (well_key well var)

/-- Modelled from the spec: `ecl_sum_get_group_var` (declared ecl_sum.h:26, no body in the
sources): "group variable at step, by group name + variable name" (section 4.5). -/
def ecl_sum_get_group_var (ecl_sum : ecl_sum_type) (step : Int) (group var : String) :
    Result Cell :=
  typed_get ecl_sum step (group_key group var)

/-- Modelled from the spec: `ecl_sum_get_region_var` (declared ecl_sum.h:27, no body in the
sources): "region variable at step, by region number + variable name" (section 4.5). -/
def ecl_sum_get_region_var (ecl_sum : ecl_sum_type) (step : Int) (region_nr : Int)
    (var : String) : Result Cell :=
  typed_get ecl_sum step (region_key region_nr var)

/-- Modelled from the spec: `ecl_sum_get_field_var` (declared ecl_sum.h:28, no body in the
sources): "field variable at step, by variable name only" (section 4.5). -/
def ecl_sum_get_field_var (ecl_sum : ecl_sum_type) (step : Int) (var : String) : Result Cell :=
  typed_get ecl_sum step (field_key var)

/-- Modelled from the spec: `ecl_sum_get_well_completion_var` (declared ecl_sum.h:31, no
body in the sources): "well-completion variable at step, by well name + variable name +
completion number" (section 4.5). -/
def ecl_sum_get_well_completion_var (ecl_sum : ecl_sum_type) (step : Int)
    (well var : String) (cell_nr : Int) : Result Cell :=
  typed_get ecl_sum step (well_completion_key well var cell_nr)

/-- Modelled from the spec: the per-variable result of `max_min` (section 4.6): a pair
`(max, min)`, or the explicit "no data" of "a variable with no valid cells in range". -/
inductive MaxMin where
  | no_data
  | pair (max min : ℚ)
deriving DecidableEq, Repr

/-- Modelled from the spec: one cell taken into a running max/min (section 4.6): an absent
cell is ignored; with `include_zero_as_valid` off a zero is not a valid cell either. -/
def MaxMin.add (include_zero_as_valid : Bool) (acc : MaxMin) : Cell → MaxMin
  | Cell.absent => acc
  | Cell.value v =>
    if include_zero_as_valid = false ∧ v = 0 then acc
    else
      match acc with
      | MaxMin.no_data => MaxMin.pair v v
      | MaxMin.pair hi lo => MaxMin.pair (if hi ≤ v then v else hi) (if v ≤ lo then v else lo)

/-- Modelled from the spec: the scan of `max_min` over one variable (section 4.6, "scans
every step in range"): `n` steps from `step` on; a cell that does not exist is the
`OutOfRange` of the Value Store. -/
def max_min_scan (store : List (List Cell)) (slot : Int) (include_zero_as_valid : Bool) :
    Nat → Int → MaxMin → Result MaxMin
  | 0, _, acc => Result.ok acc
  | n + 1, step, acc =>
    match ValueStore.get store step slot with
    | Result.fail e => Result.fail e
    | Result.ok c =>
      max_min_scan store slot include_zero_as_valid n (step + 1)
        (MaxMin.add include_zero_as_valid acc c)

/-- Modelled from the spec: `ecl_sum_max_min` (declared ecl_sum.h:52, no body in the
sources): `max_min(variable_list, step_range, include_zero_as_valid?) -> per-variable (max,
min)` of section 4.6, the step range being the steps `first .. last`, both included; a
variable that does not resolve is `NotFound`. -/
def ecl_sum_max_min (ecl_sum : ecl_sum_type) (variable_list : List Key) (first last : Int)
    (include_zero_as_valid : Bool) : List (Result MaxMin) :=
  variable_list.map fun k =>
    match KeyCatalog.resolve ecl_sum.catalog k with
    | Result.fail e => Result.fail e
    | Result.ok slot =>
      max_min_scan ecl_sum.store slot include_zero_as_valid (last - first + 1).toNat first
        MaxMin.no_data

/-- Modelled from the spec: the set of the example of section 8: one well "W1" with the variable "WOPR", three
steps, the values 10.0, 20.0, 15.0 at the steps 0, 1, 2; built by `register`,
`append_rows` and three settings. -/
def example_set : Result ecl_sum_type :=
  let (s1, slot) := KeyCatalog.register { catalog := [], store := [] }
    (well_key "W1" "WOPR") "SM3/DAY"
  let s2 := ValueStore.append_rows s1 3
  ValueStore.set s2 0 slot 10 >>= fun s3 =>
  ValueStore.set s3 1 slot 20 >>= fun s4 =>
  ValueStore.set s4 2 slot 15

/-- Modelled from the spec: a set in which every cell of a variable is absent (section
4.3, "values default to a sentinel"): "WOPR" of well "W1" registered and three steps
appended, no cell set. -/
def unset_set : ecl_sum_type :=
  ValueStore.append_rows
    (KeyCatalog.register { catalog := [], store := [] } (well_key "W1" "WOPR") "SM3/DAY").1 3

end EclSum

/-! ## Definitions: `stringlist.c` -/

namespace Stringlist

/-- The enum `owner_type` (stringlist.c:16-24). -/
inductive owner_type where
  | ref
  | list_owned
  | copy
deriving DecidableEq, Repr

/-- A `char *`: `none` is `NULL`. -/
abbrev cstr := Option String

/-- The `struct stringlist_struct` (stringlist.c:28-32). -/
structure stringlist_type where
  size : Int
  strings : List cstr
  owner : List owner_type
deriving DecidableEq, Repr

/-- One call of `util_safe_free (stringlist->strings[index])`. -/
structure Release where
  index : Int
  s : cstr
deriving DecidableEq, Repr

/-- The memory a call works on: the list behind the `stringlist_type *` and the calls of
`util_safe_free` made so far. -/
structure Mem where
  list : stringlist_type
  released : List Release
deriving DecidableEq, Repr

/-- How a call ends: it returns, it ends the process in `util_abort`, or its behaviour is
undefined (an access outside an array). -/
inductive Outcome (α : Type) where
  | ret (a : α)
  | abort (m : Mem)
  | undefined
deriving DecidableEq, Repr

/-- Sequencing of calls: the first abort or undefined step ends the run. -/
def Outcome.bind {α β : Type} (x : Outcome α) (f : α → Outcome β) : Outcome β :=
  match x with
  | .ret a => f a
  | .abort m => .abort m
  | .undefined => .undefined

instance : Monad Outcome where
  pure := Outcome.ret
  bind := Outcome.bind

/-- The call ended in `util_abort`. -/
def Outcome.isAbort {α : Type} : Outcome α → Bool
  | .abort _ => true
  | _ => false

/-- Read `a[i]`; `none` when `i` is outside the array. -/
def aget {α : Type} (a : List α) (i : Int) : Option α :=
  if i < 0 then none else a[i.toNat]?

/-- Write `a[i] = v`; `none` when `i` is outside the array. -/
def aset {α : Type} (a : List α) (i : Int) (v : α) : Option (List α) :=
  if 0 ≤ i ∧ i.toNat < a.length then some (a.set i.toNat v) else none

/-- An array access inside a call: outside the array the behaviour is undefined. -/
def access {α : Type} : Option α → Outcome α
  | some a => .ret a
  | none => .undefined

/-- Modelled from the spec: `util_realloc` of util.c is absent from the sources ("low-level
memory allocation helpers" are an external collaborator). The array keeps its leading
elements and is cut or extended to `count` elements; the added slots are indeterminate in C
and hold `junk` here. A request for a negative number of elements (a byte count that does
not fit) cannot be met and ends the process. -/
def util_realloc {α : Type} (m : Mem) (ptr : List α) (count : Int) (junk : α) :
    Outcome (List α) :=
  if count < 0 then .abort m
  else .ret (ptr.take count.toNat ++ List.replicate (count.toNat - ptr.length) junk)

/-- Modelled from the spec: `util_alloc_string_copy` of util.c is absent from the sources; an
"owned copy" is a new string with the contents of `s` (and `NULL` for `NULL`). -/
def util_alloc_string_copy (s : cstr) : cstr := s

/-- Modelled from the spec: `util_safe_free` of util.c is absent from the sources; it is the
call by which the list releases a string. The call is recorded with the slot it was read
from. -/
def util_safe_free (released : List Release) (index : Int) (p : cstr) : List Release :=
  released ++ [⟨index, p⟩]

/-- What a read of a string gives once the string has been handed to `util_safe_free`: the
memory is released and what is read there is indeterminate (a use after free); the model
has this one value for it. -/
def freed_contents : cstr := some "(freed)"

/-- The `const char * s` of a setter call on `stringlist` at `index`: either a pointer that
the list does not hold at `index`, given by its contents, or the pointer
`stringlist->strings[index]` itself. The appends and `stringlist_alloc__` set a slot that
`stringlist_grow__` has just filled with `NULL` and tagged `ref`: nothing is released there
and the two cases read alike. -/
inductive string_arg where
  | other (s : cstr)
  | held_at_index
deriving DecidableEq, Repr

/-- What `s` points to after line 79 of stringlist.c, `strings` being the array at the call
and `old_owner` the tag at `index`: the pointer held at `index` has been released when the
tag was not `ref` and the pointer was not `NULL`; `none` here is an access outside the
array. -/
def string_arg.read (s : string_arg) (strings : List cstr) (index : Int)
    (old_owner : owner_type) : Option cstr :=
  match s with
  | string_arg.other t => some t
  | string_arg.held_at_index =>
    match aget strings index with
    | none => none
    | some old => if old_owner ≠ owner_type.ref ∧ old ≠ none then some freed_contents else some old

/-- The loop of `stringlist_grow__` (stringlist.c:57-60), `n` iterations from index `i`. -/
def stringlist_grow___loop :
    Nat → Int → List cstr → List owner_type → Option (List cstr × List owner_type)
  | 0, _, strings, owner => some (strings, owner)
  | n + 1, i, strings, owner =>
    match aset strings i none, aset owner i owner_type.ref with
    | some strings1, some owner1 => stringlist_grow___loop n (i + 1) strings1 owner1
    | _, _ => none

/-- The function `stringlist_grow__` (stringlist.c:50-62). Until the loop has run, the slots
added by `util_realloc` hold an arbitrary string and an arbitrary tag. -/
def stringlist_grow__ (m : Mem) (num_append : Int) : Outcome Mem := do
  let old_size := m.list.size
  let size := m.list.size + num_append
  let m1 : Mem := { m with list := { m.list with size := size } }
  let strings ← util_realloc m1 m1.list.strings size (some "?")
  let m2 : Mem := { m1 with list := { m1.list with strings := strings } }
  let owner ← util_realloc m2 m2.list.owner size owner_type.copy
  let (strings3, owner3) ← access (stringlist_grow___loop (size - old_size).toNat old_size
    strings owner)
  pure { m2 with list := { m2.list with strings := strings3, owner := owner3 } }

/-- The function `stringlist_assert_index` (stringlist.c:65-68). -/
def stringlist_assert_index (m : Mem) (index : Int) : Outcome Unit :=
  if index ≥ m.list.size ∨ index < 0 then .abort m else .ret ()

/-- The function `stringlist_iset__` (stringlist.c:76-86). The string `s` is read at lines
83 and 85, after the release of line 79: `s1` is what it points to by then. -/
def stringlist_iset__ (m : Mem) (index : Int) (s : string_arg) (owner : owner_type) :
    Outcome Mem := do
  stringlist_assert_index m index
  let old_owner ← access (aget m.list.owner index)
  let released ←
    if old_owner ≠ owner_type.ref then do
      let old ← access (aget m.list.strings index)
      pure (util_safe_free m.released index old)
    else pure m.released
  let s1 ← access (s.read m.list.strings index old_owner)
  let owner1 ← access (aset m.list.owner index owner)
  let strings1 ←
    if owner = owner_type.copy then access (aset m.list.strings index (util_alloc_string_copy s1))
    else access (aset m.list.strings index s1)
  pure { list := { m.list with strings := strings1, owner := owner1 }, released := released }

/-- The function `stringlist_iset_copy` (stringlist.c:91-93). -/
def stringlist_iset_copy (m : Mem) (index : Int) (s : string_arg) : Outcome Mem :=
  stringlist_iset__ m index s owner_type.copy

/-- The function `stringlist_iset_ref` (stringlist.c:95-97). -/
def stringlist_iset_ref (m : Mem) (index : Int) (s : string_arg) : Outcome Mem :=
  stringlist_iset__ m index s owner_type.ref

/-- The function `stringlist_iset_owned_ref` (stringlist.c:99-101). -/
def stringlist_iset_owned_ref (m : Mem) (index : Int) (s : string_arg) : Outcome Mem :=
  stringlist_iset__ m index s owner_type.list_owned

/-- The function `stringlist_append_copy` (stringlist.c:108-111). -/
def stringlist_append_copy (m : Mem) (s : cstr) : Outcome Mem := do
  let m1 ← stringlist_grow__ m 1
  stringlist_iset_copy m1 (m1.list.size - 1) (string_arg.other s)

/-- The function `stringlist_append_ref` (stringlist.c:113-116). -/
def stringlist_append_ref (m : Mem) (s : cstr) : Outcome Mem := do
  let m1 ← stringlist_grow__ m 1
  stringlist_iset_ref m1 (m1.list.size - 1) (string_arg.other s)

/-- The function `stringlist_append_owned_ref` (stringlist.c:118-121). -/
def stringlist_append_owned_ref (m : Mem) (s : cstr) : Outcome Mem := do
  let m1 ← stringlist_grow__ m 1
  stringlist_iset_owned_ref m1 (m1.list.size - 1) (string_arg.other s)

/-- The function `stringlist_alloc_empty` (stringlist.c:125-131). -/
def stringlist_alloc_empty : stringlist_type :=
  { strings := [], size := 0, owner := [] }

/-- The function `stringlist_alloc_new` (stringlist.c:136-138). -/
def stringlist_alloc_new : stringlist_type :=
  stringlist_alloc_empty

/-- The loop of `stringlist_alloc__` (stringlist.c:147-150), `n` iterations from `iarg`. -/
def stringlist_alloc___loop (argv : List cstr) (owner : owner_type) :
    Nat → Int → Mem → Outcome Mem
  | 0, _, m => .ret m
  | n + 1, iarg, m => do
    let arg ← access (aget argv iarg)
    let m1 ← stringlist_iset__ m iarg (string_arg.other arg) owner
    stringlist_alloc___loop argv owner n (iarg + 1) m1

/-- The function `stringlist_alloc__` (stringlist.c:141-153); `released` is the record of
`util_safe_free` calls before the call. -/
def stringlist_alloc__ (released : List Release) (argv : List cstr) (argc : Int)
    (owner : owner_type) : Outcome Mem := do
  let stringlist := stringlist_alloc_empty
  let m ← stringlist_grow__ { list := stringlist, released := released } argc
  stringlist_alloc___loop argv owner argc.toNat 0 m

/-- The function `stringlist_alloc_argv_copy` (stringlist.c:156-158). -/
def stringlist_alloc_argv_copy (released : List Release) (argv : List cstr) (argc : Int) :
    Outcome Mem :=
  stringlist_alloc__ released argv argc owner_type.copy

/-- The function `stringlist_alloc_argv_ref` (stringlist.c:160-162). -/
def stringlist_alloc_argv_ref (released : List Release) (argv : List cstr) (argc : Int) :
    Outcome Mem :=
  stringlist_alloc__ released argv argc owner_type.ref

/-- The function `stringlist_alloc_argv_owned_ref` (stringlist.c:164-166). -/
def stringlist_alloc_argv_owned_ref (released : List Release) (argv : List cstr)
    (argc : Int) : Outcome Mem :=
  stringlist_alloc__ released argv argc owner_type.list_owned

/-- The function `stringlist_alloc_copy__` (stringlist.c:169-176): the list of `m` is the
`const` argument, the result holds the new list. -/
def stringlist_alloc_copy__ (m : Mem) (deep_copy : Bool) : Outcome Mem :=
  let owner := if deep_copy then owner_type.copy else owner_type.ref
  stringlist_alloc__ m.released m.list.strings m.list.size owner

/-- The function `stringlist_alloc_shallow_copy` (stringlist.c:183-185). -/
def stringlist_alloc_shallow_copy (m : Mem) : Outcome Mem :=
  stringlist_alloc_copy__ m false

/-- The function `stringlist_alloc_deep_copy` (stringlist.c:191-193). -/
def stringlist_alloc_deep_copy (m : Mem) : Outcome Mem :=
  stringlist_alloc_copy__ m true

/-- The loop of `stringlist_free` (stringlist.c:200-202), `n` iterations from index `i`. -/
def stringlist_free_loop (l : stringlist_type) : Nat → Int → List Release →
    Outcome (List Release)
  | 0, _, released => .ret released
  | n + 1, i, released => do
    let o ← access (aget l.owner i)
    let released1 ←
      if o ≠ owner_type.ref then do
        let p ← access (aget l.strings i)
        pure (util_safe_free released i p)
      else pure released
    stringlist_free_loop l n (i + 1) released1

/-- The function `stringlist_free` (stringlist.c:196-208): the list is gone afterwards, what
is left is the record of the strings released. -/
def stringlist_free (m : Mem) : Outcome (List Release) :=
  if m.list.size > 0 then stringlist_free_loop m.list m.list.size.toNat 0 m.released
  else .ret m.released

/-- The function `stringlist_iget` (stringlist.c:213-216). -/
def stringlist_iget (m : Mem) (index : Int) : Outcome cstr := do
  stringlist_assert_index m index
  access (aget m.list.strings index)

/-- The function `stringlist_get_size` (stringlist.c:220-222). -/
def stringlist_get_size (m : Mem) : Int :=
  m.list.size

/-- The representation invariant of a list built by this file's functions: both arrays have
`size` entries. -/
def stringlist_type.wf (l : stringlist_type) : Prop :=
  (l.strings.length : Int) = l.size ∧ (l.owner.length : Int) = l.size

instance (l : stringlist_type) : Decidable l.wf := by
  unfold stringlist_type.wf; infer_instance



/-- The three public setters `stringlist_iset_ref`, `stringlist_iset_owned_ref` and
`stringlist_iset_copy`, selected by the ownership mode each has in its name. -/
def stringlist_iset_by : owner_type → Mem → Int → string_arg → Outcome Mem
  | owner_type.ref => stringlist_iset_ref
  | owner_type.list_owned => stringlist_iset_owned_ref
  | owner_type.copy => stringlist_iset_copy

/-- The three public appends `stringlist_append_ref`, `stringlist_append_owned_ref` and
`stringlist_append_copy`, selected by the ownership mode each has in its name. -/
def stringlist_append_by : owner_type → Mem → cstr → Outcome Mem
  | owner_type.ref => stringlist_append_ref
  | owner_type.list_owned => stringlist_append_owned_ref
  | owner_type.copy => stringlist_append_copy

/-- The three public constructors `stringlist_alloc_argv_ref`,
`stringlist_alloc_argv_owned_ref` and `stringlist_alloc_argv_copy`, selected by the ownership
mode each has in its name. -/
def stringlist_alloc_argv_by : owner_type → List Release → List cstr → Int → Outcome Mem
  | owner_type.ref => stringlist_alloc_argv_ref
  | owner_type.list_owned => stringlist_alloc_argv_owned_ref
  | owner_type.copy => stringlist_alloc_argv_copy

/-- A run of append calls on one list, each with its own mode and string, in order. -/
def append_all (m : Mem) : List (owner_type × cstr) → Outcome Mem
  | [] => Outcome.ret m
  | (o, s) :: rest => stringlist_append_by o m s >>= fun m1 => append_all m1 rest

/-- One call on a list that is already built: an append or a set, by the ownership mode in
the name of the function called. -/
inductive Call where
  | append (o : owner_type) (s : cstr)
  | iset (o : owner_type) (index : Int) (s : string_arg)
deriving DecidableEq, Repr

/-- The call carried out on the list of `m`. -/
def Call.apply (m : Mem) : Call → Outcome Mem
  | Call.append o s => stringlist_append_by o m s
  | Call.iset o index s => stringlist_iset_by o m index s

/-- A sequence of calls on one list, in order; the run ends at the first call that does not
return. -/
def run_calls (m : Mem) : List Call → Outcome Mem
  | [] => Outcome.ret m
  | c :: rest => c.apply m >>= fun m1 => run_calls m1 rest

/-- The number of append calls in a sequence of calls. -/
def count_appends : List Call → Nat
  | [] => 0
  | Call.append _ _ :: rest => count_appends rest + 1
  | Call.iset _ _ _ :: rest => count_appends rest

/-- A list as one of the constructors returns it: `stringlist_alloc_new`, a
`stringlist_alloc_argv_*` with `argc >= 0`, `stringlist_alloc_shallow_copy` or
`stringlist_alloc_deep_copy`. -/
inductive Initial : Mem → Prop where
  | alloc_new (released : List Release) :
      Initial { list := stringlist_alloc_new, released := released }
  | alloc_argv (o : owner_type) (released : List Release) (argv : List cstr) (argc : Int)
      (m : Mem) (h0 : 0 ≤ argc)
      (h : stringlist_alloc_argv_by o released argv argc = Outcome.ret m) : Initial m
  | shallow_copy (source m : Mem)
      (h : stringlist_alloc_shallow_copy source = Outcome.ret m) : Initial m
  | deep_copy (source m : Mem)
      (h : stringlist_alloc_deep_copy source = Outcome.ret m) : Initial m

/-! ## Arrays -/

theorem aget_natCast {α : Type} (a : List α) (k : Nat) : aget a (k : Int) = a[k]? := by
  simp [aget]

theorem aget_of_nonneg {α : Type} (a : List α) (i : Int) (h : 0 ≤ i) :
    aget a i = a[i.toNat]? := by
  simp [aget, not_lt.mpr h]

theorem aset_natCast {α : Type} (a : List α) (k : Nat) (v : α) :
    aset a (k : Int) v = if k < a.length then some (a.set k v) else none := by
  simp [aset]

theorem aset_append_cons {α : Type} (pre rest : List α) (x v : α) :
    aset (pre ++ x :: rest) (pre.length : Int) v = some (pre ++ v :: rest) := by
  simp [aset_natCast]

/-! ## Sequencing -/

@[simp] theorem Outcome.ret_bind {α β : Type} (a : α) (f : α → Outcome β) :
    (Outcome.ret a >>= f) = f a := rfl

@[simp] theorem Outcome.abort_bind {α β : Type} (m : Mem) (f : α → Outcome β) :
    ((Outcome.abort m : Outcome α) >>= f) = Outcome.abort m := rfl

@[simp] theorem Outcome.undefined_bind {α β : Type} (f : α → Outcome β) :
    ((Outcome.undefined : Outcome α) >>= f) = Outcome.undefined := rfl

@[simp] theorem Outcome.pure_eq {α : Type} (a : α) : (pure a : Outcome α) = Outcome.ret a := rfl

@[simp] theorem access_some {α : Type} (a : α) : access (some a) = Outcome.ret a := rfl

@[simp] theorem access_none {α : Type} : access (none : Option α) = Outcome.undefined := rfl

/-! ## What each function computes on a well-formed list -/

theorem stringlist_grow___loop_eq (n : Nat) :
    ∀ (pre : List cstr) (pro : List owner_type) (js : cstr) (jo : owner_type),
      pre.length = pro.length →
      stringlist_grow___loop n (pre.length : Int) (pre ++ List.replicate n js)
          (pro ++ List.replicate n jo)
        = some (pre ++ List.replicate n none, pro ++ List.replicate n owner_type.ref) := by
  induction n with
  | zero => intro pre pro js jo _; simp [stringlist_grow___loop]
  | succ n ih =>
    intro pre pro js jo h
    have h1 := ih (pre ++ [none]) (pro ++ [owner_type.ref]) js jo (by simp [h])
    have h2 : aset (pro ++ jo :: List.replicate n jo) (pre.length : Int) owner_type.ref
        = some (pro ++ owner_type.ref :: List.replicate n jo) := by
      rw [h]; exact aset_append_cons _ _ _ _
    simp only [List.replicate_succ, stringlist_grow___loop, aset_append_cons, h2]
    simp only [List.length_append, List.length_singleton, Nat.cast_add, Nat.cast_one,
      List.append_assoc, List.singleton_append] at h1
    exact h1

theorem stringlist_grow___wf (m : Mem) (n : Nat) (h : m.list.wf) :
    stringlist_grow__ m (n : Int) = Outcome.ret
      { list := { size := m.list.size + n
                  strings := m.list.strings ++ List.replicate n none
                  owner := m.list.owner ++ List.replicate n owner_type.ref }
        released := m.released } := by
  obtain ⟨⟨size, strings, owner⟩, released⟩ := m
  obtain ⟨h1, h2⟩ := h
  simp only at h1 h2
  subst h1
  have hlen : strings.length = owner.length := by exact_mod_cast h2.symm
  have hnn : ¬ ((strings.length : Int) + (n : Int) < 0) := by omega
  have htn : ((strings.length : Int) + (n : Int)).toNat = strings.length + n := by omega
  have hsub : ((strings.length : Int) + (n : Int) - (strings.length : Int)).toNat = n := by omega
  have hloop := stringlist_grow___loop_eq n strings owner (some "?") owner_type.copy hlen
  simp only [stringlist_grow__, util_realloc, hnn, if_false, htn, hsub, Outcome.ret_bind,
    Outcome.pure_eq]
  rw [List.take_of_length_le (by omega), List.take_of_length_le (by omega)]
  rw [show strings.length + n - strings.length = n by omega,
    show strings.length + n - owner.length = n by omega, hloop]
  rfl

theorem string_arg.read_other (t : cstr) (strings : List cstr) (index : Int)
    (old_owner : owner_type) :
    (string_arg.other t).read strings index old_owner = some t := rfl

theorem string_arg.read_held (strings : List cstr) (k : Nat) (old : cstr)
    (old_owner : owner_type) (h : strings[k]? = some old) :
    string_arg.held_at_index.read strings (k : Int) old_owner
      = some (if old_owner ≠ owner_type.ref ∧ old ≠ none then freed_contents else old) := by
  simp only [string_arg.read, aget_natCast, h]
  split <;> rfl

theorem string_arg.read_isSome (s : string_arg) (strings : List cstr) (k : Nat) (old : cstr)
    (old_owner : owner_type) (h : strings[k]? = some old) :
    ∃ s1 : cstr, s.read strings (k : Int) old_owner = some s1 := by
  cases s with
  | other t => exact ⟨t, rfl⟩
  | held_at_index => exact ⟨_, string_arg.read_held strings k old old_owner h⟩

theorem stringlist_iset___wf (m : Mem) (k : Nat) (s : string_arg) (o : owner_type)
    (hk : (k : Int) < m.list.size) (h : m.list.wf) :
    ∃ (old : cstr) (oo : owner_type) (s1 : cstr),
      m.list.strings[k]? = some old ∧ m.list.owner[k]? = some oo ∧
      s.read m.list.strings (k : Int) oo = some s1 ∧
      stringlist_iset__ m (k : Int) s o = Outcome.ret
        { list := { size := m.list.size
                    strings := m.list.strings.set k s1
                    owner := m.list.owner.set k o }
          released := if oo ≠ owner_type.ref then m.released ++ [⟨(k : Int), old⟩]
                      else m.released } := by
  obtain ⟨⟨size, strings, owner⟩, released⟩ := m
  obtain ⟨h1, h2⟩ := h
  simp only at h1 h2 hk
  subst h1
  have hlen : owner.length = strings.length := by exact_mod_cast h2
  have hks : k < strings.length := by exact_mod_cast hk
  have hko : k < owner.length := by omega
  obtain ⟨s1, hs1⟩ := string_arg.read_isSome s strings k strings[k] owner[k]
    (List.getElem?_eq_getElem hks)
  refine ⟨strings[k], owner[k], s1, List.getElem?_eq_getElem hks,
    List.getElem?_eq_getElem hko, hs1, ?_⟩
  have hidx : ¬ ((k : Int) ≥ (strings.length : Int) ∨ (k : Int) < 0) := by omega
  simp only [stringlist_iset__, stringlist_assert_index, hidx, if_false, aget_natCast,
    aset_natCast, List.getElem?_eq_getElem hks, List.getElem?_eq_getElem hko, hks, hko,
    if_true, access_some, Outcome.ret_bind, Outcome.pure_eq, util_alloc_string_copy,
    util_safe_free, hs1]
  by_cases ho : owner[k] = owner_type.ref <;> by_cases hc : o = owner_type.copy <;>
    simp [ho, hc]

theorem stringlist_iset___wf_other (m : Mem) (k : Nat) (s : cstr) (o : owner_type)
    (hk : (k : Int) < m.list.size) (h : m.list.wf) :
    ∃ (old : cstr) (oo : owner_type),
      m.list.strings[k]? = some old ∧ m.list.owner[k]? = some oo ∧
      stringlist_iset__ m (k : Int) (string_arg.other s) o = Outcome.ret
        { list := { size := m.list.size
                    strings := m.list.strings.set k s
                    owner := m.list.owner.set k o }
          released := if oo ≠ owner_type.ref then m.released ++ [⟨(k : Int), old⟩]
                      else m.released } := by
  obtain ⟨old, oo, s1, h1, h2, h3, h4⟩ := stringlist_iset___wf m k (string_arg.other s) o hk h
  rw [string_arg.read_other] at h3
  cases h3
  exact ⟨old, oo, h1, h2, h4⟩

theorem stringlist_iset_by_eq (o : owner_type) (m : Mem) (i : Int) (s : string_arg) :
    stringlist_iset_by o m i s = stringlist_iset__ m i s o := by
  cases o <;> rfl

theorem stringlist_append_by_eq (o : owner_type) (m : Mem) (s : cstr) :
    stringlist_append_by o m s
      = (stringlist_grow__ m 1 >>= fun m1 =>
          stringlist_iset__ m1 (m1.list.size - 1) (string_arg.other s) o) := by
  cases o <;> rfl

theorem stringlist_alloc_argv_by_eq (o : owner_type) (released : List Release)
    (argv : List cstr) (argc : Int) :
    stringlist_alloc_argv_by o released argv argc = stringlist_alloc__ released argv argc o := by
  cases o <;> rfl

theorem stringlist_append_by_wf (o : owner_type) (m : Mem) (s : cstr) (h : m.list.wf) :
    stringlist_append_by o m s = Outcome.ret
      { list := { size := m.list.size + 1
                  strings := m.list.strings ++ [s]
                  owner := m.list.owner ++ [o] }
        released := m.released } := by
  have hg := stringlist_grow___wf m 1 h
  rw [Nat.cast_one] at hg
  rw [stringlist_append_by_eq, hg, Outcome.ret_bind]
  obtain ⟨⟨size, strings, owner⟩, released⟩ := m
  obtain ⟨h1, h2⟩ := h
  simp only at h1 h2
  subst h1
  have hlen : owner.length = strings.length := by exact_mod_cast h2
  simp only [List.replicate_one, Nat.cast_one, add_sub_cancel_right]
  obtain ⟨old, oo, _, ho, heq⟩ := stringlist_iset___wf_other
    { list := { size := (strings.length : Int) + 1, strings := strings ++ [none],
                owner := owner ++ [owner_type.ref] }, released := released }
    strings.length s o (by simp) (by simp [stringlist_type.wf, hlen])
  simp only [← hlen, List.getElem?_concat_length, Option.some.injEq] at ho
  subst ho
  rw [heq]
  simp only [ne_eq, not_true_eq_false, if_false, List.set_append_right _ _ (le_refl _),
    Nat.sub_self, List.set_cons_zero]
  rw [← hlen, List.set_append_right _ _ (le_refl _)]
  simp

theorem set_append_cons_length {α : Type} (pre rest : List α) (x v : α) (k : Nat)
    (hk : pre.length = k) : (pre ++ x :: rest).set k v = pre ++ v :: rest := by
  subst hk
  rw [List.set_append_right _ _ (le_refl _)]
  simp

theorem stringlist_alloc___loop_eq (argv : List cstr) (o : owner_type)
    (released : List Release) (n : Nat) :
    ∀ k : Nat, k + n ≤ argv.length →
      stringlist_alloc___loop argv o n (k : Int)
          { list := { size := ((k + n : Nat) : Int)
                      strings := argv.take k ++ List.replicate n none
                      owner := List.replicate k o ++ List.replicate n owner_type.ref }
            released := released }
        = Outcome.ret
          { list := { size := ((k + n : Nat) : Int)
                      strings := argv.take (k + n)
                      owner := List.replicate (k + n) o }
            released := released } := by
  induction n with
  | zero => intro k _; simp [stringlist_alloc___loop]
  | succ n ih =>
    intro k hk
    have hka : k < argv.length := by omega
    have hlen : (argv.take k).length = k := by
      rw [List.length_take]; omega
    obtain ⟨old, oo, _, ho, heq⟩ := stringlist_iset___wf_other
      { list := { size := ((k + (n + 1) : Nat) : Int)
                  strings := argv.take k ++ List.replicate (n + 1) none
                  owner := List.replicate k o ++ List.replicate (n + 1) owner_type.ref }
        released := released } k argv[k] o (by simp)
      (by simp [stringlist_type.wf, hlen])
    have hoo : oo = owner_type.ref := by
      have : (List.replicate k o ++ List.replicate (n + 1) owner_type.ref)[k]?
          = some owner_type.ref := by
        rw [List.getElem?_append_right (by simp)]
        simp [List.replicate_succ]
      simp only at ho
      rw [this] at ho
      exact (Option.some.inj ho).symm
    subst hoo
    have h1 := ih (k + 1) (by omega)
    simp only [stringlist_alloc___loop, aget_natCast, List.getElem?_eq_getElem hka,
      access_some, Outcome.ret_bind, heq]
    simp only [ne_eq, not_true_eq_false, if_false, List.replicate_succ,
      set_append_cons_length _ _ _ _ k hlen,
      set_append_cons_length _ _ _ _ k (List.length_replicate k o)]
    have e1 : argv.take k ++ argv[k] :: List.replicate n none
        = argv.take (k + 1) ++ List.replicate n none := by
      rw [List.take_succ, List.getElem?_eq_getElem hka]
      simp only [Option.toList_some, List.append_assoc, List.singleton_append]
    have e2 : List.replicate k o ++ o :: List.replicate n owner_type.ref
        = List.replicate (k + 1) o ++ List.replicate n owner_type.ref := by
      rw [List.replicate_succ' k o]; simp
    have e3 : k + (n + 1) = k + 1 + n := by omega
    rw [e1, e2, e3]
    exact_mod_cast h1

theorem stringlist_alloc___wf (released : List Release) (argv : List cstr) (n : Nat)
    (o : owner_type) (h : n ≤ argv.length) :
    stringlist_alloc__ released argv (n : Int) o = Outcome.ret
      { list := { size := (n : Int)
                  strings := argv.take n
                  owner := List.replicate n o }
        released := released } := by
  have hg := stringlist_grow___wf { list := stringlist_alloc_empty, released := released } n
    (by simp [stringlist_type.wf, stringlist_alloc_empty])
  have hl := stringlist_alloc___loop_eq argv o released n 0 (by omega)
  simp only [stringlist_alloc__, hg, Outcome.ret_bind, Int.toNat_ofNat]
  simp only [stringlist_alloc_empty, List.nil_append, zero_add, List.take_zero,
    List.replicate_zero, Nat.cast_zero] at hl ⊢
  exact hl

theorem stringlist_free_loop_spec (l : stringlist_type) (n : Nat) :
    ∀ (k : Nat) (released : List Release),
      k + n ≤ l.strings.length → k + n ≤ l.owner.length →
      ∃ r : List Release,
        stringlist_free_loop l n (k : Int) released = Outcome.ret (released ++ r) ∧
        r.map Release.index
          = ((List.range' k n).filter
              (fun i => decide (l.owner[i]? ≠ some owner_type.ref))).map Int.ofNat ∧
        ∀ e ∈ r, aget l.strings e.index = some e.s := by
  induction n with
  | zero =>
    intro k released _ _
    exact ⟨[], by simp [stringlist_free_loop], by simp, by simp⟩
  | succ n ih =>
    intro k released hs ho
    have hks : k < l.strings.length := by omega
    have hko : k < l.owner.length := by omega
    by_cases hr : l.owner[k] = owner_type.ref
    · obtain ⟨r, h1, h2, h3⟩ := ih (k + 1) released (by omega) (by omega)
      refine ⟨r, ?_, ?_, h3⟩
      · simp only [stringlist_free_loop, aget_natCast, List.getElem?_eq_getElem hko,
          access_some, Outcome.ret_bind, hr, ne_eq, not_true_eq_false, if_false,
          Outcome.pure_eq]
        exact_mod_cast h1
      · rw [h2, List.range'_succ, List.filter_cons]
        simp [List.getElem?_eq_getElem hko, hr]
    · obtain ⟨r, h1, h2, h3⟩ := ih (k + 1) (released ++ [⟨(k : Int), l.strings[k]⟩])
        (by omega) (by omega)
      refine ⟨⟨(k : Int), l.strings[k]⟩ :: r, ?_, ?_, ?_⟩
      · simp only [stringlist_free_loop, aget_natCast, List.getElem?_eq_getElem hko,
          List.getElem?_eq_getElem hks, access_some, Outcome.ret_bind, hr, ne_eq,
          not_false_eq_true, if_true, Outcome.pure_eq, util_safe_free]
        rw [show released ++ ⟨(k : Int), l.strings[k]⟩ :: r
          = released ++ [⟨(k : Int), l.strings[k]⟩] ++ r by simp]
        exact_mod_cast h1
      · rw [List.map_cons, h2, List.range'_succ, List.filter_cons]
        simp [List.getElem?_eq_getElem hko, hr]
      · intro e he
        rcases List.mem_cons.mp he with rfl | he
        · simp [aget_natCast, List.getElem?_eq_getElem hks]
        · exact h3 e he

theorem stringlist_free_wf (m : Mem) (h : m.list.wf) :
    ∃ r : List Release,
      stringlist_free m = Outcome.ret (m.released ++ r) ∧
      r.map Release.index
        = ((List.range m.list.strings.length).filter
            (fun i => decide (m.list.owner[i]? ≠ some owner_type.ref))).map Int.ofNat ∧
      ∀ e ∈ r, aget m.list.strings e.index = some e.s := by
  obtain ⟨⟨size, strings, owner⟩, released⟩ := m
  obtain ⟨h1, h2⟩ := h
  simp only at h1 h2
  subst h1
  have hlen : owner.length = strings.length := by exact_mod_cast h2
  by_cases hz : strings.length = 0
  · refine ⟨[], ?_, ?_, by simp⟩
    · simp [stringlist_free, hz]
    · simp [hz]
  · obtain ⟨r, h1, h2, h3⟩ := stringlist_free_loop_spec
      { size := (strings.length : Int), strings := strings, owner := owner }
      strings.length 0 released (by simp) (by simp [hlen])
    refine ⟨r, ?_, ?_, h3⟩
    · have hp : (strings.length : Int) > 0 := by omega
      simp only [stringlist_free, hp, if_true, Int.toNat_ofNat]
      exact_mod_cast h1
    · rw [h2, List.range_eq_range']

theorem stringlist_iget_wf (m : Mem) (k : Nat) (h : m.list.wf) (hk : (k : Int) < m.list.size) :
    ∃ s : cstr, m.list.strings[k]? = some s ∧ stringlist_iget m (k : Int) = Outcome.ret s := by
  obtain ⟨h1, _⟩ := h
  have hks : k < m.list.strings.length := by omega
  have hidx : ¬ ((k : Int) ≥ m.list.size ∨ (k : Int) < 0) := by omega
  refine ⟨m.list.strings[k], List.getElem?_eq_getElem hks, ?_⟩
  simp [stringlist_iget, stringlist_assert_index, hidx, aget_natCast,
    List.getElem?_eq_getElem hks]

theorem stringlist_iget_abort_iff (m : Mem) (i : Int) :
    stringlist_iget m i = Outcome.abort m ↔ (i < 0 ∨ i ≥ m.list.size) := by
  unfold stringlist_iget stringlist_assert_index
  by_cases h : i ≥ m.list.size ∨ i < 0
  · simp only [h, if_true, Outcome.abort_bind, true_iff]
    tauto
  · simp only [h, if_false, Outcome.ret_bind]
    constructor
    · intro hc
      cases hg : aget m.list.strings i <;> rw [hg] at hc <;> cases hc
    · intro hc
      exact absurd (Or.symm hc) h

theorem append_all_wf (ops : List (owner_type × cstr)) :
    ∀ m : Mem, m.list.wf →
      append_all m ops = Outcome.ret
        { list := { size := m.list.size + ops.length
                    strings := m.list.strings ++ ops.map Prod.snd
                    owner := m.list.owner ++ ops.map Prod.fst }
          released := m.released } := by
  induction ops with
  | nil => intro m _; simp [append_all]
  | cons op rest ih =>
    intro m h
    obtain ⟨o, s⟩ := op
    have hwf : stringlist_type.wf
        ⟨m.list.size + 1, m.list.strings ++ [s], m.list.owner ++ [o]⟩ := by
      obtain ⟨h1, h2⟩ := h
      constructor
      · simp only [List.length_append, List.length_singleton, Nat.cast_add, Nat.cast_one, h1]
      · simp only [List.length_append, List.length_singleton, Nat.cast_add, Nat.cast_one, h2]
    have h1 := ih ⟨⟨m.list.size + 1, m.list.strings ++ [s], m.list.owner ++ [o]⟩, m.released⟩ hwf
    simp only [append_all, stringlist_append_by_wf o m s h, Outcome.ret_bind, h1,
      List.length_cons, List.map_cons, List.append_assoc, List.singleton_append,
      Nat.cast_add, Nat.cast_one]
    congr 3
    omega

theorem stringlist_iget_isAbort_iff (m : Mem) (i : Int) :
    (stringlist_iget m i).isAbort = true ↔ (i < 0 ∨ i ≥ m.list.size) := by
  unfold stringlist_iget stringlist_assert_index
  by_cases h : i ≥ m.list.size ∨ i < 0
  · simp only [h, if_true, Outcome.abort_bind, Outcome.isAbort, true_iff]
    tauto
  · simp only [h, if_false, Outcome.ret_bind]
    constructor
    · intro hc
      cases hg : aget m.list.strings i <;> rw [hg] at hc <;> cases hc
    · intro hc
      exact absurd (Or.symm hc) h

theorem aget_set_ne {α : Type} (a : List α) (k : Nat) (v : α) (j : Int) (h : j ≠ (k : Int)) :
    aget (a.set k v) j = aget a j := by
  unfold aget
  by_cases hj : j < 0
  · simp [hj]
  · have hne : k ≠ j.toNat := by omega
    simp only [hj, if_false]
    exact List.getElem?_set_ne hne

theorem aget_set_eq {α : Type} (a : List α) (k : Nat) (v : α) (h : k < a.length) :
    aget (a.set k v) (k : Int) = some v := by
  rw [aget_natCast]
  simp [List.getElem?_set_self, h]

theorem aget_append_left {α : Type} (a b : List α) (j : Int) (h : j < (a.length : Int)) :
    aget (a ++ b) j = aget a j := by
  unfold aget
  by_cases hj : j < 0
  · simp [hj]
  · simp only [hj, if_false]
    exact List.getElem?_append_left (by omega)

/-- What a set at a valid index of a well-formed list returns, with the index as an `int`. -/
theorem stringlist_iset___valid (m : Mem) (i : Int) (s : string_arg) (o : owner_type)
    (h : m.list.wf) (h0 : 0 ≤ i) (h1 : i < m.list.size) :
    ∃ (m1 : Mem) (s1 : cstr), stringlist_iset__ m i s o = Outcome.ret m1 ∧
      m1.list.size = m.list.size ∧
      m1.list.strings = m.list.strings.set i.toNat s1 ∧
      m1.list.owner = m.list.owner.set i.toNat o ∧
      i.toNat < m.list.strings.length ∧ i.toNat < m.list.owner.length ∧
      ∃ oo : owner_type, aget m.list.owner i = some oo ∧
        s.read m.list.strings i oo = some s1 := by
  have hi : ((i.toNat : Nat) : Int) = i := Int.toNat_of_nonneg h0
  obtain ⟨old, oo, s1, _, ho, hs1, heq⟩ := stringlist_iset___wf m i.toNat s o (by omega) h
  rw [hi] at heq hs1
  obtain ⟨h2, h3⟩ := h
  exact ⟨_, s1, heq, rfl, rfl, rfl, by omega, by omega, oo,
    by rw [aget_of_nonneg _ _ h0]; exact ho, hs1⟩

theorem aget_replicate {α : Type} (n : Nat) (v : α) (i : Int) (h0 : 0 ≤ i)
    (h1 : i < (n : Int)) : aget (List.replicate n v) i = some v := by
  have hi : ((i.toNat : Nat) : Int) = i := Int.toNat_of_nonneg h0
  rw [← hi, aget_natCast, List.getElem?_replicate]
  simp only [ite_eq_left_iff, not_lt, reduceCtorEq, imp_false, not_le]
  omega

/-- The tag written by a set at a valid index of a well-formed list. -/
theorem stringlist_iset___tag (m : Mem) (i : Int) (s : string_arg) (o : owner_type)
    (h : m.list.wf) (h0 : 0 ≤ i) (h1 : i < m.list.size) :
    ∃ m1 : Mem, stringlist_iset__ m i s o = Outcome.ret m1 ∧
      aget m1.list.owner i = some o := by
  have hi : ((i.toNat : Nat) : Int) = i := Int.toNat_of_nonneg h0
  obtain ⟨m1, _, he, _, _, ho, _, hko, _⟩ := stringlist_iset___valid m i s o h h0 h1
  refine ⟨m1, he, ?_⟩
  rw [ho, ← hi, Int.toNat_ofNat]
  exact aget_set_eq _ _ _ hko

/-- The tag written by an append to a well-formed list. -/
theorem stringlist_append_by_tag (o : owner_type) (m : Mem) (s : cstr) (h : m.list.wf) :
    ∃ m1 : Mem, stringlist_append_by o m s = Outcome.ret m1 ∧
      aget m1.list.owner m.list.size = some o := by
  refine ⟨_, stringlist_append_by_wf o m s h, ?_⟩
  obtain ⟨_, h2⟩ := h
  rw [← h2, aget_natCast]
  simp

/-- What `stringlist_alloc__` returns for `0 <= argc <= length of argv`. -/
theorem stringlist_alloc___valid (released : List Release) (argv : List cstr) (argc : Int)
    (o : owner_type) (h0 : 0 ≤ argc) (h1 : argc ≤ (argv.length : Int)) :
    stringlist_alloc__ released argv argc o = Outcome.ret
      { list := { size := argc
                  strings := argv.take argc.toNat
                  owner := List.replicate argc.toNat o }
        released := released } := by
  have hi : ((argc.toNat : Nat) : Int) = argc := Int.toNat_of_nonneg h0
  have h := stringlist_alloc___wf released argv argc.toNat o (by omega)
  rw [hi] at h
  exact h

/-- The tags written by `stringlist_alloc__`. -/
theorem stringlist_alloc___tag (released : List Release) (argv : List cstr) (argc : Int)
    (o : owner_type) (h0 : 0 ≤ argc) (h1 : argc ≤ (argv.length : Int)) :
    ∃ m1 : Mem, stringlist_alloc__ released argv argc o = Outcome.ret m1 ∧
      ∀ i : Int, 0 ≤ i → i < argc → aget m1.list.owner i = some o := by
  refine ⟨_, stringlist_alloc___valid released argv argc o h0 h1, ?_⟩
  intro i hi0 hi1
  exact aget_replicate _ _ _ hi0 (by omega)

theorem owner_type_ne_ref (o : owner_type) :
    o ≠ owner_type.ref ↔ (o = owner_type.list_owned ∨ o = owner_type.copy) := by
  cases o <;> simp

/-- Which calls of `util_safe_free` a free of a well-formed list makes, slot by slot. -/
theorem stringlist_free_mem_iff (m : Mem) (r : List Release) (h : m.list.wf)
    (hA : r.map Release.index
      = ((List.range m.list.strings.length).filter
          (fun i => decide (m.list.owner[i]? ≠ some owner_type.ref))).map Int.ofNat)
    (hB : ∀ e ∈ r, aget m.list.strings e.index = some e.s) (i : Int) (s : cstr) :
    (⟨i, s⟩ : Release) ∈ r ↔
      (0 ≤ i ∧ i < m.list.size ∧ aget m.list.strings i = some s ∧
        (aget m.list.owner i = some owner_type.list_owned ∨
          aget m.list.owner i = some owner_type.copy)) := by
  obtain ⟨h1, h2⟩ := h
  constructor
  · intro he
    have hi : i ∈ r.map Release.index := List.mem_map.mpr ⟨⟨i, s⟩, he, rfl⟩
    rw [hA] at hi
    obtain ⟨k, hk, hki⟩ := List.mem_map.mp hi
    have hki2 : (k : Int) = i := hki
    obtain ⟨hk1, hk2⟩ := List.mem_filter.mp hk
    have hklt : k < m.list.strings.length := List.mem_range.mp hk1
    have hko : k < m.list.owner.length := by omega
    have hne : m.list.owner[k]? ≠ some owner_type.ref := of_decide_eq_true hk2
    rw [List.getElem?_eq_getElem hko] at hne
    have hne2 : m.list.owner[k] ≠ owner_type.ref := fun hc => hne (by rw [hc])
    refine ⟨by omega, by omega, hB ⟨i, s⟩ he, ?_⟩
    rw [← hki2, aget_natCast, List.getElem?_eq_getElem hko]
    rcases (owner_type_ne_ref _).mp hne2 with hc | hc
    · exact Or.inl (by rw [hc])
    · exact Or.inr (by rw [hc])
  · rintro ⟨h0, hlt, hs, ho⟩
    have hi : ((i.toNat : Nat) : Int) = i := Int.toNat_of_nonneg h0
    have hne : m.list.owner[i.toNat]? ≠ some owner_type.ref := by
      rw [← hi, aget_natCast] at ho
      rcases ho with hc | hc <;> rw [hc] <;> simp
    have hmem : i ∈ r.map Release.index := by
      rw [hA]
      refine List.mem_map.mpr ⟨i.toNat, List.mem_filter.mpr ⟨List.mem_range.mpr (by omega),
        decide_eq_true hne⟩, hi⟩
    obtain ⟨e, he, hei⟩ := List.mem_map.mp hmem
    have hes := hB e he
    rw [hei, hs] at hes
    obtain ⟨ei, es⟩ := e
    simp only at hei hes
    rw [hei, ← Option.some.inj hes] at he
    exact he

/-- The strings of a list built by `stringlist_alloc__` read back as the entries of
`argv`. -/
theorem stringlist_alloc___iget (released : List Release) (argv : List cstr) (argc : Int)
    (o : owner_type) (h0 : 0 ≤ argc) (h1 : argc ≤ (argv.length : Int)) :
    ∃ m1 : Mem, stringlist_alloc__ released argv argc o = Outcome.ret m1 ∧
      m1.list.size = argc ∧ m1.list.strings = argv.take argc.toNat ∧
      m1.list.owner = List.replicate argc.toNat o ∧ m1.released = released ∧
      ∀ i : Int, 0 ≤ i → i < argc →
        ∃ s : cstr, aget argv i = some s ∧ stringlist_iget m1 i = Outcome.ret s := by
  refine ⟨_, stringlist_alloc___valid released argv argc o h0 h1, rfl, rfl, rfl, rfl, ?_⟩
  intro i hi0 hi1
  have hi : ((i.toNat : Nat) : Int) = i := Int.toNat_of_nonneg hi0
  have hlt : i.toNat < argv.length := by omega
  have hidx : ¬ (i ≥ argc ∨ i < 0) := by omega
  have hg : aget argv i = some argv[i.toNat] := by
    rw [aget_of_nonneg _ _ hi0, List.getElem?_eq_getElem hlt]
  have hg2 : aget (argv.take argc.toNat) i = some argv[i.toNat] := by
    rw [aget_of_nonneg _ _ hi0, List.getElem?_take_of_lt (by omega),
      List.getElem?_eq_getElem hlt]
  refine ⟨argv[i.toNat], hg, ?_⟩
  simp [stringlist_iget, stringlist_assert_index, hidx, hg2]

/-- The list of `stringlist_alloc_new` is well formed. -/
theorem stringlist_alloc_new_wf : stringlist_alloc_new.wf := by decide

/-- An append to a well-formed list returns a well-formed list. -/
theorem stringlist_append_by_keeps_wf (o : owner_type) (m : Mem) (s : cstr) (h : m.list.wf) :
    ∃ m1 : Mem, stringlist_append_by o m s = Outcome.ret m1 ∧ m1.list.wf := by
  refine ⟨_, stringlist_append_by_wf o m s h, ?_⟩
  obtain ⟨h1, h2⟩ := h
  constructor
  · simp only [List.length_append, List.length_singleton, Nat.cast_add, Nat.cast_one, h1]
  · simp only [List.length_append, List.length_singleton, Nat.cast_add, Nat.cast_one, h2]

/-- A set at a valid index of a well-formed list returns a well-formed list. -/
theorem stringlist_iset___keeps_wf (m : Mem) (i : Int) (s : string_arg) (o : owner_type)
    (h : m.list.wf) (h0 : 0 ≤ i) (h1 : i < m.list.size) :
    ∃ m1 : Mem, stringlist_iset__ m i s o = Outcome.ret m1 ∧ m1.list.wf := by
  obtain ⟨m1, _, he, hsz, hs, ho, _, _, _⟩ := stringlist_iset___valid m i s o h h0 h1
  refine ⟨m1, he, ?_⟩
  obtain ⟨h2, h3⟩ := h
  constructor
  · rw [hs, hsz, List.length_set]; exact h2
  · rw [ho, hsz, List.length_set]; exact h3

/-- Every well-formed list is built from `stringlist_alloc_new` by appends: the
well-formed lists are the lists a caller can hold. -/
theorem wf_is_reachable (l : stringlist_type) (released : List Release) (h : l.wf) :
    append_all { list := stringlist_alloc_new, released := released } (l.owner.zip l.strings)
      = Outcome.ret { list := l, released := released } := by
  obtain ⟨h1, h2⟩ := h
  have hlen : l.owner.length = l.strings.length := by omega
  rw [append_all_wf _ _ stringlist_alloc_new_wf]
  obtain ⟨size, strings, owner⟩ := l
  simp only at h1 h2 hlen
  simp only [stringlist_alloc_new, stringlist_alloc_empty, List.nil_append, zero_add,
    List.length_zip, hlen, min_self, h1,
    List.map_fst_zip _ _ (le_of_eq hlen), List.map_snd_zip _ _ (le_of_eq hlen.symm)]

/-- A free of a well-formed list whose tags are all `ref` releases nothing. -/
theorem stringlist_free_all_ref (m : Mem) (h : m.list.wf)
    (href : ∀ o ∈ m.list.owner, o = owner_type.ref) :
    stringlist_free m = Outcome.ret m.released := by
  obtain ⟨r, hfree, hA, _⟩ := stringlist_free_wf m h
  have hnil : (List.range m.list.strings.length).filter
      (fun i => decide (m.list.owner[i]? ≠ some owner_type.ref)) = [] := by
    rw [List.filter_eq_nil_iff]
    intro k hk
    have hko : k < m.list.owner.length := by
      have := List.mem_range.mp hk
      have := h.1
      have := h.2
      omega
    simp [List.getElem?_eq_getElem hko, href _ (List.getElem_mem hko)]
  rw [hnil] at hA
  have hr : r = [] := by simpa using hA
  rw [hfree, hr, List.append_nil]

/-- What a copy of a well-formed list by `stringlist_alloc_copy__` returns. -/
theorem stringlist_alloc_copy___wf (m : Mem) (deep_copy : Bool) (h : m.list.wf) :
    stringlist_alloc_copy__ m deep_copy = Outcome.ret
      { list := { size := m.list.size
                  strings := m.list.strings
                  owner := List.replicate m.list.strings.length
                    (if deep_copy then owner_type.copy else owner_type.ref) }
        released := m.released } := by
  obtain ⟨h1, h2⟩ := h
  have h0 : 0 ≤ m.list.size := by omega
  have hv := stringlist_alloc___valid m.released m.list.strings m.list.size
    (if deep_copy then owner_type.copy else owner_type.ref) h0 (by omega)
  have htn : m.list.size.toNat = m.list.strings.length := by omega
  rw [htn, List.take_of_length_le (le_refl _)] at hv
  exact hv

/-- Reading a copy of a well-formed list returns what reading the list returns. -/
theorem stringlist_alloc_copy___iget (m : Mem) (o : owner_type) (h : m.list.wf) (i : Int)
    (h0 : 0 ≤ i) (h1 : i < m.list.size) :
    ∃ s : cstr, stringlist_iget m i = Outcome.ret s ∧
      stringlist_iget
        { list := { size := m.list.size, strings := m.list.strings,
                    owner := List.replicate m.list.strings.length o },
          released := m.released } i = Outcome.ret s := by
  have hi : ((i.toNat : Nat) : Int) = i := Int.toNat_of_nonneg h0
  obtain ⟨s, hs, he⟩ := stringlist_iget_wf m i.toNat h (by omega)
  rw [hi] at he
  refine ⟨s, he, ?_⟩
  have hidx : ¬ (i ≥ m.list.size ∨ i < 0) := by omega
  simp [stringlist_iget, stringlist_assert_index, hidx, aget_of_nonneg _ _ h0, hs]

/-- A set at an invalid index aborts with the memory of the call. -/
theorem stringlist_iset___invalid (m : Mem) (i : Int) (s : string_arg) (o : owner_type)
    (h : i < 0 ∨ i ≥ m.list.size) : stringlist_iset__ m i s o = Outcome.abort m := by
  have hc : i ≥ m.list.size ∨ i < 0 := Or.symm h
  simp only [stringlist_iset__, stringlist_assert_index, hc, if_true, Outcome.abort_bind]

/-- A set that returns, on a well-formed list, returns a well-formed list of the same
size. -/
theorem stringlist_iset___ret_wf (m m1 : Mem) (i : Int) (s : string_arg) (o : owner_type)
    (h : m.list.wf) (he : stringlist_iset__ m i s o = Outcome.ret m1) :
    m1.list.wf ∧ m1.list.size = m.list.size := by
  by_cases hv : i < 0 ∨ i ≥ m.list.size
  · rw [stringlist_iset___invalid m i s o hv] at he
    cases he
  · obtain ⟨m2, _, he2, hsz, hs, ho, _, _, _⟩ :=
      stringlist_iset___valid m i s o h (by omega) (by omega)
    rw [he2] at he
    cases he
    obtain ⟨h2, h3⟩ := h
    refine ⟨⟨?_, ?_⟩, hsz⟩
    · rw [hs, hsz, List.length_set]; exact h2
    · rw [ho, hsz, List.length_set]; exact h3

/-- The loop of `stringlist_alloc__`, when it returns, keeps the list well formed and its
size. -/
theorem stringlist_alloc___loop_ret_wf (argv : List cstr) (o : owner_type) (n : Nat) :
    ∀ (iarg : Int) (m m1 : Mem), m.list.wf →
      stringlist_alloc___loop argv o n iarg m = Outcome.ret m1 →
      m1.list.wf ∧ m1.list.size = m.list.size := by
  induction n with
  | zero =>
    intro iarg m m1 h he
    simp only [stringlist_alloc___loop] at he
    cases he
    exact ⟨h, rfl⟩
  | succ n ih =>
    intro iarg m m1 h he
    simp only [stringlist_alloc___loop] at he
    cases ha : aget argv iarg with
    | none => rw [ha] at he; cases he
    | some a =>
      rw [ha, access_some, Outcome.ret_bind] at he
      cases hs : stringlist_iset__ m iarg (string_arg.other a) o with
      | ret m2 =>
        rw [hs, Outcome.ret_bind] at he
        obtain ⟨hw2, hz2⟩ := stringlist_iset___ret_wf m m2 iarg (string_arg.other a) o h hs
        obtain ⟨hw1, hz1⟩ := ih (iarg + 1) m2 m1 hw2 he
        exact ⟨hw1, by rw [hz1, hz2]⟩
      | abort m2 => rw [hs] at he; cases he
      | undefined => rw [hs] at he; cases he

/-- A list that `stringlist_alloc__` returns is well formed, whatever `argv` and `argc`. -/
theorem stringlist_alloc___ret_wf (released : List Release) (argv : List cstr) (argc : Int)
    (o : owner_type) (m : Mem) (he : stringlist_alloc__ released argv argc o = Outcome.ret m) :
    m.list.wf ∧ m.list.size = argc := by
  by_cases hneg : argc < 0
  · have hlt : (0 : Int) + argc < 0 := by omega
    simp only [stringlist_alloc__, stringlist_grow__, stringlist_alloc_empty, util_realloc,
      hlt, if_true, Outcome.abort_bind] at he
    cases he
  · have hi : ((argc.toNat : Nat) : Int) = argc := Int.toNat_of_nonneg (by omega)
    have hg := stringlist_grow___wf { list := stringlist_alloc_empty, released := released }
      argc.toNat stringlist_alloc_new_wf
    rw [hi] at hg
    simp only [stringlist_alloc__, hg, Outcome.ret_bind] at he
    obtain ⟨hw, hz⟩ := stringlist_alloc___loop_ret_wf argv o argc.toNat 0 _ m
      (by
        constructor
        · simp [stringlist_alloc_empty, hi]
        · simp [stringlist_alloc_empty, hi]) he
    refine ⟨hw, ?_⟩
    rw [hz]
    simp [stringlist_alloc_empty]

/-- A list that a constructor returns is well formed. -/
theorem Initial.wf (m : Mem) (h : Initial m) : m.list.wf := by
  cases h with
  | alloc_new released => exact stringlist_alloc_new_wf
  | alloc_argv o released argv argc m h0 h =>
    rw [stringlist_alloc_argv_by_eq] at h
    exact (stringlist_alloc___ret_wf released argv argc o m h).1
  | shallow_copy source m h =>
    exact (stringlist_alloc___ret_wf _ _ _ _ m h).1
  | deep_copy source m h =>
    exact (stringlist_alloc___ret_wf _ _ _ _ m h).1

/-- A call that returns, on a well-formed list, returns a well-formed list; an append adds
one to the size, a set keeps it. -/
theorem Call.apply_ret_wf (c : Call) (m m1 : Mem) (h : m.list.wf)
    (he : c.apply m = Outcome.ret m1) :
    m1.list.wf ∧ m1.list.size = m.list.size + (count_appends [c] : Int) := by
  cases c with
  | append o s =>
    simp only [Call.apply] at he
    obtain ⟨m2, he2, hw2⟩ := stringlist_append_by_keeps_wf o m s h
    have hsz := stringlist_append_by_wf o m s h
    rw [he] at he2 hsz
    cases he2
    cases hsz
    exact ⟨hw2, by simp [count_appends]⟩
  | iset o i s =>
    simp only [Call.apply, stringlist_iset_by_eq] at he
    obtain ⟨hw, hz⟩ := stringlist_iset___ret_wf m m1 i s o h he
    exact ⟨hw, by simp [count_appends, hz]⟩

/-- A run of calls that returns, on a well-formed list, returns a well-formed list whose
size is the size at the start plus the number of appends. -/
theorem run_calls_ret_wf (cs : List Call) :
    ∀ (m m1 : Mem), m.list.wf → run_calls m cs = Outcome.ret m1 →
      m1.list.wf ∧ m1.list.size = m.list.size + (count_appends cs : Int) := by
  induction cs with
  | nil =>
    intro m m1 h he
    simp only [run_calls] at he
    cases he
    exact ⟨h, by simp [count_appends]⟩
  | cons c rest ih =>
    intro m m1 h he
    simp only [run_calls] at he
    cases hc : c.apply m with
    | ret m2 =>
      rw [hc, Outcome.ret_bind] at he
      obtain ⟨hw2, hz2⟩ := Call.apply_ret_wf c m m2 h hc
      obtain ⟨hw1, hz1⟩ := ih m2 m1 hw2 he
      refine ⟨hw1, ?_⟩
      rw [hz1, hz2]
      cases c with
      | append o s => simp only [count_appends]; push_cast; omega
      | iset o i s => simp only [count_appends]; push_cast; omega
    | abort m2 => rw [hc] at he; cases he
    | undefined => rw [hc] at he; cases he

/-! ## The claims -/

/-- C1: strings appended one after another to a list from `stringlist_alloc_new`, by any
mix of the three append functions, are held in insertion order: the run returns, the size
is the number of appends, `stringlist_iget` at `i` returns the `i`-th string appended, and
the array of strings is the appended sequence itself (neither sorted nor deduplicated). -/
theorem C1_append_insertion_order (released : List Release)
    (ops : List (owner_type × cstr)) :
    ∃ m : Mem,
      append_all { list := stringlist_alloc_new, released := released } ops = Outcome.ret m ∧
      stringlist_get_size m = (ops.length : Int) ∧
      (∀ i : Fin ops.length, stringlist_iget m ((i : Nat) : Int) = Outcome.ret (ops.get i).2) ∧
      m.list.strings = ops.map Prod.snd := by
  have hwf : stringlist_alloc_new.wf := by decide
  have h := append_all_wf ops { list := stringlist_alloc_new, released := released } hwf
  refine ⟨_, h, ?_, ?_, ?_⟩
  · simp [stringlist_get_size, stringlist_alloc_new, stringlist_alloc_empty]
  · intro i
    have hi : (i : Nat) < (ops.map Prod.snd).length := by simp
    have h0 : ¬ (((i : Nat) : Int) < 0) := by omega
    simp [stringlist_iget, stringlist_assert_index, stringlist_alloc_new,
      stringlist_alloc_empty, aget_natCast, Nat.not_le.mpr i.isLt, h0]
  · simp [stringlist_alloc_new, stringlist_alloc_empty]

/-- C1, at a concrete run: "b", "a", "b" appended by copy, by reference and by owned
reference come back as "b", "a", "b". -/
theorem C1_append_insertion_order_witness :
    ∃ m : Mem,
      append_all { list := stringlist_alloc_new, released := [] }
        [(owner_type.copy, some "b"), (owner_type.ref, some "a"),
         (owner_type.list_owned, some "b")] = Outcome.ret m ∧
      stringlist_get_size m = 3 ∧
      m.list.strings = [some "b", some "a", some "b"] := by
  obtain ⟨m, h1, h2, _, h4⟩ := C1_append_insertion_order []
    [(owner_type.copy, some "b"), (owner_type.ref, some "a"), (owner_type.list_owned, some "b")]
  exact ⟨m, h1, h2, h4⟩

/-- C2: `stringlist_iget` returns the string stored at position `i` when
`0 <= i < size`; it aborts (through `stringlist_assert_index`, with the list as it was) if
and only if `i < 0` or `i >= size`; on a list from `stringlist_alloc_new` every
`stringlist_iget` aborts. -/
theorem C2_iget_index_check (m : Mem) :
    (m.list.wf → ∀ i : Int, 0 ≤ i → i < m.list.size →
      ∃ s : cstr, aget m.list.strings i = some s ∧ stringlist_iget m i = Outcome.ret s) ∧
    (∀ i : Int, (stringlist_iget m i).isAbort = true ↔ (i < 0 ∨ i ≥ m.list.size)) ∧
    (∀ i : Int, stringlist_iget m i = Outcome.abort m ↔ (i < 0 ∨ i ≥ m.list.size)) ∧
    (∀ i : Int, stringlist_iget { list := stringlist_alloc_new, released := m.released } i
      = Outcome.abort { list := stringlist_alloc_new, released := m.released }) := by
  refine ⟨?_, stringlist_iget_isAbort_iff m, stringlist_iget_abort_iff m, ?_⟩
  · intro hwf i h0 h1
    have hi : ((i.toNat : Nat) : Int) = i := Int.toNat_of_nonneg h0
    obtain ⟨s, hs, he⟩ := stringlist_iget_wf m i.toNat hwf (by omega)
    rw [hi] at he
    exact ⟨s, by rw [← hi, aget_natCast]; exact hs, he⟩
  · intro i
    rw [stringlist_iget_abort_iff]
    simp only [stringlist_alloc_new, stringlist_alloc_empty]
    omega

/-- C2, at the list `["x", NULL]`: index 1 is valid and returns the stored `NULL`. -/
theorem C2_iget_index_check_witness :
    ∃ s : cstr,
      aget [some "x", none] 1 = some s ∧
      stringlist_iget
        { list := { size := 2, strings := [some "x", none],
                    owner := [owner_type.copy, owner_type.ref] }, released := [] } 1
        = Outcome.ret s :=
  (C2_iget_index_check
    { list := { size := 2, strings := [some "x", none],
                owner := [owner_type.copy, owner_type.ref] }, released := [] }).1
    (by decide) 1 (by decide) (by decide)

/-- C3: with `i < 0` or `i >= size`, each of `stringlist_iset_copy`, `stringlist_iset_ref`
and `stringlist_iset_owned_ref` aborts, whatever `s` is, and the memory at the abort is the
memory at the call: no element, ownership tag or size has changed and no string has been
released. -/
theorem C3_iset_invalid_index_aborts (m : Mem) (s : string_arg) (i : Int)
    (h : i < 0 ∨ i ≥ m.list.size) :
    stringlist_iset_copy m i s = Outcome.abort m ∧
    stringlist_iset_ref m i s = Outcome.abort m ∧
    stringlist_iset_owned_ref m i s = Outcome.abort m := by
  have hc : i ≥ m.list.size ∨ i < 0 := Or.symm h
  refine ⟨?_, ?_, ?_⟩ <;>
    simp only [stringlist_iset_copy, stringlist_iset_ref, stringlist_iset_owned_ref,
      stringlist_iset__, stringlist_assert_index, hc, if_true, Outcome.abort_bind]

/-- C3, at the list `["x"]` (owned copy) and index 1. -/
theorem C3_iset_invalid_index_aborts_witness :
    stringlist_iset_copy
        { list := { size := 1, strings := [some "x"], owner := [owner_type.copy] },
          released := [] } 1 (string_arg.other (some "y"))
      = Outcome.abort
        { list := { size := 1, strings := [some "x"], owner := [owner_type.copy] },
          released := [] } :=
  (C3_iset_invalid_index_aborts
    { list := { size := 1, strings := [some "x"], owner := [owner_type.copy] },
      released := [] } (string_arg.other (some "y")) 1 (by decide)).1

/-- What a set at a valid index of a well-formed list leaves behind, for every argument:
the setter returns, `stringlist_iget` at `i` returns what `s` points to after the release
of line 79 (`s` itself unless that release was of `s`), the size is unchanged, and at every
`j != i` the string and the ownership tag are unchanged. -/
theorem stringlist_iset_by_frame (o : owner_type) (m : Mem) (s : string_arg) (i : Int)
    (hwf : m.list.wf) (h0 : 0 ≤ i) (h1 : i < m.list.size) :
    ∃ (m1 : Mem) (s1 : cstr) (oo : owner_type),
      aget m.list.owner i = some oo ∧
      s.read m.list.strings i oo = some s1 ∧
      stringlist_iset_by o m i s = Outcome.ret m1 ∧
      stringlist_iget m1 i = Outcome.ret s1 ∧
      stringlist_get_size m1 = stringlist_get_size m ∧
      ∀ j : Int, j ≠ i →
        aget m1.list.strings j = aget m.list.strings j ∧
        aget m1.list.owner j = aget m.list.owner j := by
  have hi : ((i.toNat : Nat) : Int) = i := Int.toNat_of_nonneg h0
  obtain ⟨m1, s1, he, hsz, hs, ho, hks, hko, oo, hoo, hs1⟩ :=
    stringlist_iset___valid m i s o hwf h0 h1
  refine ⟨m1, s1, oo, hoo, hs1, by rw [stringlist_iset_by_eq]; exact he, ?_, hsz, ?_⟩
  · have hidx : ¬ (i ≥ m1.list.size ∨ i < 0) := by omega
    have hg : aget m1.list.strings i = some s1 := by
      rw [hs, ← hi, Int.toNat_ofNat]
      exact aget_set_eq _ _ _ hks
    simp [stringlist_iget, stringlist_assert_index, hidx, hg]
  · intro j hj
    rw [hs, ho]
    exact ⟨aget_set_ne _ _ _ _ (by omega), aget_set_ne _ _ _ _ (by omega)⟩

/-- A set with a string that the list does not hold at `i`: `stringlist_iget` at `i`
returns `s` afterwards, the size is unchanged, and at every `j != i` the string and the
ownership tag are unchanged. -/
theorem stringlist_iset_by_frame_other (o : owner_type) (m : Mem) (s : cstr) (i : Int)
    (hwf : m.list.wf) (h0 : 0 ≤ i) (h1 : i < m.list.size) :
    ∃ m1 : Mem,
      stringlist_iset_by o m i (string_arg.other s) = Outcome.ret m1 ∧
      stringlist_iget m1 i = Outcome.ret s ∧
      stringlist_get_size m1 = stringlist_get_size m ∧
      ∀ j : Int, j ≠ i →
        aget m1.list.strings j = aget m.list.strings j ∧
        aget m1.list.owner j = aget m.list.owner j := by
  obtain ⟨m1, s1, oo, _, hs1, he, hg, hsz, hfr⟩ :=
    stringlist_iset_by_frame o m (string_arg.other s) i hwf h0 h1
  rw [string_arg.read_other] at hs1
  cases hs1
  exact ⟨m1, he, hg, hsz, hfr⟩

/-- C4, at the failing input `L = stringlist_alloc_new (); stringlist_append_copy (L, "x");
stringlist_iset_copy (L, 0, stringlist_iget (L, 0))`: the append leaves the list `["x"]`
tagged `copy`, `stringlist_iget` at 0 returns that string, and the set hands it to
`util_safe_free` (line 79) before it copies from it (line 83): the element is a copy of
released memory, and `stringlist_iget` at 0 afterwards does not return "x". -/
theorem C4_iset_copy_of_held_string :
    stringlist_append_copy { list := stringlist_alloc_new, released := [] } (some "x")
      = Outcome.ret
        { list := { size := 1, strings := [some "x"], owner := [owner_type.copy] },
          released := [] } ∧
    stringlist_iget
        { list := { size := 1, strings := [some "x"], owner := [owner_type.copy] },
          released := [] } 0 = Outcome.ret (some "x") ∧
    stringlist_iset_copy
        { list := { size := 1, strings := [some "x"], owner := [owner_type.copy] },
          released := [] } 0 string_arg.held_at_index
      = Outcome.ret
        { list := { size := 1, strings := [freed_contents], owner := [owner_type.copy] },
          released := [⟨0, some "x"⟩] } ∧
    stringlist_iget
        { list := { size := 1, strings := [freed_contents], owner := [owner_type.copy] },
          released := [⟨0, some "x"⟩] } 0 = Outcome.ret freed_contents ∧
    stringlist_iget
        { list := { size := 1, strings := [freed_contents], owner := [owner_type.copy] },
          released := [⟨0, some "x"⟩] } 0 ≠ Outcome.ret (some "x") := by
  decide

/-- C5: each of the three appends returns, increases the size by exactly one, places `s`
at index `old_size`, and leaves the string and the ownership tag at every index
`0 .. old_size-1` unchanged. -/
theorem C5_append_frame (o : owner_type) (m : Mem) (s : cstr) (hwf : m.list.wf) :
    ∃ m1 : Mem,
      stringlist_append_by o m s = Outcome.ret m1 ∧
      stringlist_get_size m1 = stringlist_get_size m + 1 ∧
      stringlist_iget m1 (stringlist_get_size m) = Outcome.ret s ∧
      ∀ j : Int, 0 ≤ j → j < stringlist_get_size m →
        aget m1.list.strings j = aget m.list.strings j ∧
        aget m1.list.owner j = aget m.list.owner j := by
  obtain ⟨h1, h2⟩ := hwf
  refine ⟨_, stringlist_append_by_wf o m s ⟨h1, h2⟩, rfl, ?_, ?_⟩
  · have hidx : ¬ (m.list.size ≥ m.list.size + 1 ∨ m.list.size < 0) := by omega
    have hneg : ¬ (m.list.size < 0) := by omega
    have hg : aget (m.list.strings ++ [s]) m.list.size = some s := by
      rw [← h1, aget_natCast]
      simp
    simp [stringlist_iget, stringlist_assert_index, stringlist_get_size, hneg, hg]
  · intro j _ hj
    simp only [stringlist_get_size] at hj
    exact ⟨aget_append_left _ _ _ (by omega), aget_append_left _ _ _ (by omega)⟩

/-- C5, at the list `["x"]`: an append by reference. -/
theorem C5_append_frame_witness :
    ∃ m1 : Mem,
      stringlist_append_by owner_type.ref
        { list := { size := 1, strings := [some "x"], owner := [owner_type.copy] },
          released := [] } (some "y") = Outcome.ret m1 ∧
      stringlist_get_size m1 = 2 ∧
      stringlist_iget m1 1 = Outcome.ret (some "y") ∧
      aget m1.list.strings 0 = some (some "x") ∧
      aget m1.list.owner 0 = some owner_type.copy := by
  obtain ⟨m1, h1, h2, h3, h4⟩ := C5_append_frame owner_type.ref
    { list := { size := 1, strings := [some "x"], owner := [owner_type.copy] },
      released := [] } (some "y") (by decide)
  exact ⟨m1, h1, h2, h3, (h4 0 (by decide) (by decide)).1, (h4 0 (by decide) (by decide)).2⟩

/-- C6: every insertion records the ownership mode in its name on the element it writes:
`stringlist_iset_ref`, `stringlist_append_ref`, `stringlist_alloc_argv_ref` tag it `ref`;
`stringlist_iset_owned_ref`, `stringlist_append_owned_ref`,
`stringlist_alloc_argv_owned_ref` tag it `list_owned`; `stringlist_iset_copy`,
`stringlist_append_copy`, `stringlist_alloc_argv_copy` tag it `copy`. For the setters this
is so for every `s`, the pointer held at the index included (the tag is written at line 81,
before `s` is read). -/
theorem C6_owner_tags :
    (∀ (m : Mem) (s : string_arg) (i : Int), m.list.wf → 0 ≤ i → i < m.list.size →
      (∃ m1 : Mem, stringlist_iset_ref m i s = Outcome.ret m1 ∧
        aget m1.list.owner i = some owner_type.ref) ∧
      (∃ m1 : Mem, stringlist_iset_owned_ref m i s = Outcome.ret m1 ∧
        aget m1.list.owner i = some owner_type.list_owned) ∧
      (∃ m1 : Mem, stringlist_iset_copy m i s = Outcome.ret m1 ∧
        aget m1.list.owner i = some owner_type.copy)) ∧
    (∀ (m : Mem) (s : cstr), m.list.wf →
      (∃ m1 : Mem, stringlist_append_ref m s = Outcome.ret m1 ∧
        aget m1.list.owner m.list.size = some owner_type.ref) ∧
      (∃ m1 : Mem, stringlist_append_owned_ref m s = Outcome.ret m1 ∧
        aget m1.list.owner m.list.size = some owner_type.list_owned) ∧
      (∃ m1 : Mem, stringlist_append_copy m s = Outcome.ret m1 ∧
        aget m1.list.owner m.list.size = some owner_type.copy)) ∧
    (∀ (released : List Release) (argv : List cstr) (argc : Int),
      0 ≤ argc → argc ≤ (argv.length : Int) →
      (∃ m1 : Mem, stringlist_alloc_argv_ref released argv argc = Outcome.ret m1 ∧
        ∀ i : Int, 0 ≤ i → i < argc → aget m1.list.owner i = some owner_type.ref) ∧
      (∃ m1 : Mem, stringlist_alloc_argv_owned_ref released argv argc = Outcome.ret m1 ∧
        ∀ i : Int, 0 ≤ i → i < argc → aget m1.list.owner i = some owner_type.list_owned) ∧
      (∃ m1 : Mem, stringlist_alloc_argv_copy released argv argc = Outcome.ret m1 ∧
        ∀ i : Int, 0 ≤ i → i < argc → aget m1.list.owner i = some owner_type.copy)) := by
  refine ⟨?_, ?_, ?_⟩
  · intro m s i hwf h0 h1
    exact ⟨stringlist_iset___tag m i s owner_type.ref hwf h0 h1,
      stringlist_iset___tag m i s owner_type.list_owned hwf h0 h1,
      stringlist_iset___tag m i s owner_type.copy hwf h0 h1⟩
  · intro m s hwf
    exact ⟨stringlist_append_by_tag owner_type.ref m s hwf,
      stringlist_append_by_tag owner_type.list_owned m s hwf,
      stringlist_append_by_tag owner_type.copy m s hwf⟩
  · intro released argv argc h0 h1
    exact ⟨stringlist_alloc___tag released argv argc owner_type.ref h0 h1,
      stringlist_alloc___tag released argv argc owner_type.list_owned h0 h1,
      stringlist_alloc___tag released argv argc owner_type.copy h0 h1⟩

/-- C6, at the list `["x"]` (a reference): a copy set at index 0, an owned-reference
append, and a reference construction from `["a", "b"]`. -/
theorem C6_owner_tags_witness :
    (∃ m1 : Mem,
      stringlist_iset_copy
        { list := { size := 1, strings := [some "x"], owner := [owner_type.ref] },
          released := [] } 0 (string_arg.other (some "y")) = Outcome.ret m1 ∧
      aget m1.list.owner 0 = some owner_type.copy) ∧
    (∃ m1 : Mem,
      stringlist_append_owned_ref
        { list := { size := 1, strings := [some "x"], owner := [owner_type.ref] },
          released := [] } (some "y") = Outcome.ret m1 ∧
      aget m1.list.owner 1 = some owner_type.list_owned) ∧
    (∃ m1 : Mem,
      stringlist_alloc_argv_ref [] [some "a", some "b"] 2 = Outcome.ret m1 ∧
      aget m1.list.owner 1 = some owner_type.ref) := by
  refine ⟨?_, ?_, ?_⟩
  · exact (C6_owner_tags.1
      { list := { size := 1, strings := [some "x"], owner := [owner_type.ref] },
        released := [] } (string_arg.other (some "y")) 0 (by decide) (by decide)
      (by decide)).2.2
  · exact (C6_owner_tags.2.1
      { list := { size := 1, strings := [some "x"], owner := [owner_type.ref] },
        released := [] } (some "y") (by decide)).2.1
  · obtain ⟨m1, h1, h2⟩ := (C6_owner_tags.2.2 [] [some "a", some "b"] 2
      (by decide) (by decide)).1
    exact ⟨m1, h1, h2 1 (by decide) (by decide)⟩

/-- C7: `stringlist_free` returns and hands the string at index `i` to `util_safe_free`
if and only if `i` is an index of the list whose ownership tag is `list_owned` or `copy`;
the string at an index tagged `ref` is never released; a list of size 0 releases no string;
no index is released twice. -/
theorem C7_free_releases_owned (m : Mem) (hwf : m.list.wf) :
    ∃ r : List Release,
      stringlist_free m = Outcome.ret (m.released ++ r) ∧
      (∀ (i : Int) (s : cstr), (⟨i, s⟩ : Release) ∈ r ↔
        (0 ≤ i ∧ i < m.list.size ∧ aget m.list.strings i = some s ∧
          (aget m.list.owner i = some owner_type.list_owned ∨
            aget m.list.owner i = some owner_type.copy))) ∧
      (∀ (i : Int) (s : cstr), aget m.list.owner i = some owner_type.ref →
        (⟨i, s⟩ : Release) ∉ r) ∧
      (m.list.size = 0 → r = []) ∧
      (r.map Release.index).Nodup := by
  obtain ⟨r, hfree, hA, hB⟩ := stringlist_free_wf m hwf
  have hiff := stringlist_free_mem_iff m r hwf hA hB
  refine ⟨r, hfree, hiff, ?_, ?_, ?_⟩
  · intro i s href hmem
    obtain ⟨_, _, _, ho⟩ := (hiff i s).mp hmem
    rw [href] at ho
    rcases ho with hc | hc <;> cases hc
  · intro hz
    have hlen : m.list.strings.length = 0 := by
      have := hwf.1
      omega
    rw [hlen] at hA
    simpa using hA
  · rw [hA]
    exact ((List.nodup_range _).filter _).map (fun _ _ h => Int.ofNat.inj h)

/-- C7, at the list `["a", "b", "c"]` tagged `ref`, `copy`, `list_owned`: the free releases
"b" and "c" and not "a". -/
theorem C7_free_releases_owned_witness :
    ∃ r : List Release,
      stringlist_free
        { list := { size := 3, strings := [some "a", some "b", some "c"],
                    owner := [owner_type.ref, owner_type.copy, owner_type.list_owned] },
          released := [] } = Outcome.ret ([] ++ r) ∧
      (⟨1, some "b"⟩ : Release) ∈ r ∧ (⟨2, some "c"⟩ : Release) ∈ r ∧
      (⟨0, some "a"⟩ : Release) ∉ r := by
  obtain ⟨r, h1, h2, h3, _, _⟩ := C7_free_releases_owned
    { list := { size := 3, strings := [some "a", some "b", some "c"],
                owner := [owner_type.ref, owner_type.copy, owner_type.list_owned] },
      released := [] } (by decide)
  exact ⟨r, h1, (h2 1 (some "b")).mpr (by decide), (h2 2 (some "c")).mpr (by decide),
    h3 0 (some "a") (by decide)⟩

/-- C8: for `argc >= 0` and an `argv` with at least `argc` entries, each of the three
`stringlist_alloc_argv_*` constructors returns a list of size `argc` whose
`stringlist_iget` at every `0 <= i < argc` returns `argv[i]`. -/
theorem C8_alloc_argv (o : owner_type) (released : List Release) (argv : List cstr)
    (argc : Int) (h0 : 0 ≤ argc) (h1 : argc ≤ (argv.length : Int)) :
    ∃ m1 : Mem,
      stringlist_alloc_argv_by o released argv argc = Outcome.ret m1 ∧
      stringlist_get_size m1 = argc ∧
      ∀ i : Int, 0 ≤ i → i < argc →
        ∃ s : cstr, aget argv i = some s ∧ stringlist_iget m1 i = Outcome.ret s := by
  obtain ⟨m1, he, hsz, _, _, _, hget⟩ := stringlist_alloc___iget released argv argc o h0 h1
  exact ⟨m1, by rw [stringlist_alloc_argv_by_eq]; exact he, hsz, hget⟩

/-- C8, at `argv = ["b", "a", "c"]` and `argc = 2`, by copy. -/
theorem C8_alloc_argv_witness :
    ∃ m1 : Mem,
      stringlist_alloc_argv_by owner_type.copy [] [some "b", some "a", some "c"] 2
        = Outcome.ret m1 ∧
      stringlist_get_size m1 = 2 ∧
      (∃ s : cstr, aget [some "b", some "a", some "c"] 1 = some s ∧
        stringlist_iget m1 1 = Outcome.ret s) := by
  obtain ⟨m1, h1, h2, h3⟩ := C8_alloc_argv owner_type.copy []
    [some "b", some "a", some "c"] 2 (by decide) (by decide)
  exact ⟨m1, h1, h2, h3 1 (by decide) (by decide)⟩

/-- C9: `stringlist_alloc_shallow_copy` and `stringlist_alloc_deep_copy` each return a new
list of the size of `L` with an equal string at every index, in the same order, and release
no string; the list `L` is a `const` argument, only read. In the shallow copy every element
is tagged `ref`, and freeing the copy releases no string; in the deep copy every element is
tagged `copy`, whatever the tags of `L`. -/
theorem C9_shallow_and_deep_copy (m : Mem) (hwf : m.list.wf) :
    (∃ m1 : Mem,
      stringlist_alloc_shallow_copy m = Outcome.ret m1 ∧
      stringlist_get_size m1 = stringlist_get_size m ∧
      m1.list.strings = m.list.strings ∧
      (∀ i : Int, 0 ≤ i → i < stringlist_get_size m →
        ∃ s : cstr, stringlist_iget m i = Outcome.ret s ∧
          stringlist_iget m1 i = Outcome.ret s) ∧
      (∀ i : Int, 0 ≤ i → i < stringlist_get_size m →
        aget m1.list.owner i = some owner_type.ref) ∧
      m1.released = m.released ∧
      stringlist_free m1 = Outcome.ret m1.released) ∧
    (∃ m2 : Mem,
      stringlist_alloc_deep_copy m = Outcome.ret m2 ∧
      stringlist_get_size m2 = stringlist_get_size m ∧
      m2.list.strings = m.list.strings ∧
      (∀ i : Int, 0 ≤ i → i < stringlist_get_size m →
        ∃ s : cstr, stringlist_iget m i = Outcome.ret s ∧
          stringlist_iget m2 i = Outcome.ret s) ∧
      (∀ i : Int, 0 ≤ i → i < stringlist_get_size m →
        aget m2.list.owner i = some owner_type.copy) ∧
      m2.released = m.released) := by
  have hlen : (m.list.strings.length : Int) = m.list.size := hwf.1
  refine ⟨⟨_, stringlist_alloc_copy___wf m false hwf, rfl, rfl, ?_, ?_, rfl, ?_⟩,
    ⟨_, stringlist_alloc_copy___wf m true hwf, rfl, rfl, ?_, ?_, rfl⟩⟩
  · intro i h0 h1
    exact stringlist_alloc_copy___iget m owner_type.ref hwf i h0 h1
  · intro i h0 h1
    simp only [stringlist_get_size] at h1
    exact aget_replicate _ _ _ h0 (by omega)
  · apply stringlist_free_all_ref
    · exact ⟨hlen, by simp [hlen]⟩
    · intro o ho
      exact (List.mem_replicate.mp ho).2
  · intro i h0 h1
    exact stringlist_alloc_copy___iget m owner_type.copy hwf i h0 h1
  · intro i h0 h1
    simp only [stringlist_get_size] at h1
    exact aget_replicate _ _ _ h0 (by omega)

/-- C9, at the list `["b", "a"]` tagged `copy`, `list_owned`. -/
theorem C9_shallow_and_deep_copy_witness :
    (∃ m1 : Mem,
      stringlist_alloc_shallow_copy
        { list := { size := 2, strings := [some "b", some "a"],
                    owner := [owner_type.copy, owner_type.list_owned] },
          released := [] } = Outcome.ret m1 ∧
      m1.list.strings = [some "b", some "a"] ∧
      aget m1.list.owner 0 = some owner_type.ref ∧
      stringlist_free m1 = Outcome.ret m1.released) ∧
    (∃ m2 : Mem,
      stringlist_alloc_deep_copy
        { list := { size := 2, strings := [some "b", some "a"],
                    owner := [owner_type.copy, owner_type.list_owned] },
          released := [] } = Outcome.ret m2 ∧
      m2.list.strings = [some "b", some "a"] ∧
      aget m2.list.owner 1 = some owner_type.copy) := by
  obtain ⟨⟨m1, a1, _, a3, _, a5, _, a7⟩, ⟨m2, b1, _, b3, _, b5, _⟩⟩ :=
    C9_shallow_and_deep_copy
      { list := { size := 2, strings := [some "b", some "a"],
                  owner := [owner_type.copy, owner_type.list_owned] },
        released := [] } (by decide)
  exact ⟨⟨m1, a1, a3, a5 0 (by decide) (by decide), a7⟩,
    ⟨m2, b1, b3, b5 1 (by decide) (by decide)⟩⟩

/-- C13: with `0 <= i < size`, each of the three setters returns and hands the string
previously stored at `i` to `util_safe_free` if and only if the previous ownership tag at
`i` was `list_owned` or `copy`; it releases no other string, and at most one; a previous
element tagged `ref` is overwritten, by what `s` points to, without being released. This is
so for every `s`, the pointer held at `i` included. -/
theorem C13_iset_releases_previous (o : owner_type) (m : Mem) (s : string_arg) (i : Int)
    (hwf : m.list.wf) (h0 : 0 ≤ i) (h1 : i < m.list.size) :
    ∃ (m1 : Mem) (old : cstr) (oo : owner_type) (r : List Release),
      aget m.list.strings i = some old ∧ aget m.list.owner i = some oo ∧
      stringlist_iset_by o m i s = Outcome.ret m1 ∧
      m1.released = m.released ++ r ∧
      ((⟨i, old⟩ : Release) ∈ r ↔ (oo = owner_type.list_owned ∨ oo = owner_type.copy)) ∧
      (∀ e ∈ r, e = (⟨i, old⟩ : Release)) ∧ r.length ≤ 1 ∧
      (oo = owner_type.ref →
        r = [] ∧ aget m1.list.strings i = s.read m.list.strings i oo) := by
  have hi : ((i.toNat : Nat) : Int) = i := Int.toNat_of_nonneg h0
  obtain ⟨old, oo, s1, hs, ho, hs1, heq⟩ :=
    stringlist_iset___wf m i.toNat s o (by omega) hwf
  rw [hi] at heq hs1
  have hks : i.toNat < m.list.strings.length := by
    have := hwf.1
    omega
  refine ⟨_, old, oo, if oo ≠ owner_type.ref then [⟨i, old⟩] else [], ?_, ?_,
    by rw [stringlist_iset_by_eq]; exact heq, ?_, ?_, ?_, ?_, ?_⟩
  · rw [aget_of_nonneg _ _ h0]; exact hs
  · rw [aget_of_nonneg _ _ h0]; exact ho
  · by_cases hr : oo = owner_type.ref <;> simp [hr]
  · cases oo <;> simp
  · intro e he
    by_cases hr : oo = owner_type.ref
    · simp [hr] at he
    · simpa [hr] using he
  · by_cases hr : oo = owner_type.ref <;> simp [hr]
  · intro hr
    refine ⟨by simp [hr], ?_⟩
    have hg := aget_set_eq m.list.strings i.toNat s1 hks
    rw [hi] at hg
    rw [hs1]
    exact hg

/-- C13, at the list `["x", "y"]` tagged `copy`, `ref`: a set at index 0 releases "x", a
set at index 1 releases nothing. -/
theorem C13_iset_releases_previous_witness :
    (∃ m1 : Mem,
      stringlist_iset_by owner_type.ref
        { list := { size := 2, strings := [some "x", some "y"],
                    owner := [owner_type.copy, owner_type.ref] }, released := [] }
        0 (string_arg.other (some "z")) = Outcome.ret m1 ∧
      m1.released = [⟨0, some "x"⟩]) ∧
    (∃ m1 : Mem,
      stringlist_iset_by owner_type.copy
        { list := { size := 2, strings := [some "x", some "y"],
                    owner := [owner_type.copy, owner_type.ref] }, released := [] }
        1 (string_arg.other (some "z")) = Outcome.ret m1 ∧
      m1.released = []) := by
  constructor
  · obtain ⟨m1, old, oo, r, a1, a2, a3, a4, a5, a6, a7, _⟩ :=
      C13_iset_releases_previous owner_type.ref
        { list := { size := 2, strings := [some "x", some "y"],
                    owner := [owner_type.copy, owner_type.ref] }, released := [] }
        (string_arg.other (some "z")) 0 (by decide) (by decide) (by decide)
    have ho : oo = owner_type.copy := (Option.some.inj a2).symm
    have hs : old = some "x" := (Option.some.inj a1).symm
    have hmem := a5.mpr (Or.inr ho)
    refine ⟨m1, a3, ?_⟩
    rw [a4, List.nil_append]
    match r, hmem, a6, a7 with
    | [e], _, h6, _ => rw [h6 e (List.mem_singleton.mpr rfl), hs]
  · obtain ⟨m1, old, oo, r, _, a2, a3, a4, _, _, _, a8⟩ :=
      C13_iset_releases_previous owner_type.copy
        { list := { size := 2, strings := [some "x", some "y"],
                    owner := [owner_type.copy, owner_type.ref] }, released := [] }
        (string_arg.other (some "z")) 1 (by decide) (by decide) (by decide)
    have ho : oo = owner_type.ref := (Option.some.inj a2).symm
    exact ⟨m1, a3, by rw [a4, (a8 ho).1]; rfl⟩

/-- C14: a list returned by `stringlist_alloc_new`, by a `stringlist_alloc_argv_*` with
`argc >= 0`, or by one of the two copies, and then taken through any sequence of append and
set calls that all return, has `size >= 0`, a strings array and an owner array of exactly
`size` entries each, and a size that is the size after construction plus the number of
append calls. -/
theorem C14_size_invariant (m0 m : Mem) (cs : List Call) (hinit : Initial m0)
    (hrun : run_calls m0 cs = Outcome.ret m) :
    0 ≤ m.list.size ∧
    (m.list.strings.length : Int) = m.list.size ∧
    (m.list.owner.length : Int) = m.list.size ∧
    m.list.size = m0.list.size + (count_appends cs : Int) := by
  obtain ⟨⟨h1, h2⟩, hsz⟩ := run_calls_ret_wf cs m0 m (Initial.wf m0 hinit) hrun
  exact ⟨by omega, h1, h2, hsz⟩

/-- C14, at the list of `stringlist_alloc_argv_copy (["a", "b"], 2)` after an append, a set
and another append. -/
theorem C14_size_invariant_witness :
    (0 : Int) ≤ 4 ∧
    (([some "a", some "z", some "c", none] : List cstr).length : Int) = 4 ∧
    (([owner_type.copy, owner_type.list_owned, owner_type.ref, owner_type.copy] :
      List owner_type).length : Int) = 4 ∧
    (4 : Int) = 2 + (count_appends
      [Call.append owner_type.ref (some "c"),
       Call.iset owner_type.list_owned 1 (string_arg.other (some "z")),
       Call.append owner_type.copy none] : Int) :=
  C14_size_invariant
    { list := { size := 2, strings := [some "a", some "b"],
                owner := [owner_type.copy, owner_type.copy] }, released := [] }
    { list := { size := 4, strings := [some "a", some "z", some "c", none],
                owner := [owner_type.copy, owner_type.list_owned, owner_type.ref,
                          owner_type.copy] },
      released := [⟨1, some "b"⟩] }
    [Call.append owner_type.ref (some "c"),
     Call.iset owner_type.list_owned 1 (string_arg.other (some "z")),
     Call.append owner_type.copy none]
    (Initial.alloc_argv owner_type.copy [] [some "a", some "b"] 2 _ (by decide) (by decide))
    (by decide)

end Stringlist

namespace EclSum

/-- C10, as stated, fails: `ecl_sum_NOT_IMPLEMENTED_var` is a value of `ecl_sum_var_type`
and is none of well, group, region, field, completion, miscellaneous. -/
theorem C10_six_categories_counterexample :
    ¬ (ecl_sum_var_type.ecl_sum_NOT_IMPLEMENTED_var = ecl_sum_var_type.ecl_sum_well_var ∨
       ecl_sum_var_type.ecl_sum_NOT_IMPLEMENTED_var = ecl_sum_var_type.ecl_sum_group_var ∨
       ecl_sum_var_type.ecl_sum_NOT_IMPLEMENTED_var = ecl_sum_var_type.ecl_sum_region_var ∨
       ecl_sum_var_type.ecl_sum_NOT_IMPLEMENTED_var = ecl_sum_var_type.ecl_sum_field_var ∨
       ecl_sum_var_type.ecl_sum_NOT_IMPLEMENTED_var
         = ecl_sum_var_type.ecl_sum_completion_var ∨
       ecl_sum_var_type.ecl_sum_NOT_IMPLEMENTED_var = ecl_sum_var_type.ecl_sum_misc_var) := by
  decide

/-- C10, amended: `ecl_sum_var_type` consists of exactly seven values, the six categories
well, group, region, field, completion, miscellaneous and `ecl_sum_NOT_IMPLEMENTED_var`:
the seven are distinct, every value of the type is one of them, and a function with the
declared type of `ecl_sum_iget_var_type` returns one of them. -/
theorem C10_seven_values :
    [ecl_sum_var_type.ecl_sum_well_var, ecl_sum_var_type.ecl_sum_group_var,
      ecl_sum_var_type.ecl_sum_region_var, ecl_sum_var_type.ecl_sum_field_var,
      ecl_sum_var_type.ecl_sum_completion_var, ecl_sum_var_type.ecl_sum_misc_var,
      ecl_sum_var_type.ecl_sum_NOT_IMPLEMENTED_var].Nodup ∧
    (∀ v : ecl_sum_var_type,
      v ∈ [ecl_sum_var_type.ecl_sum_well_var, ecl_sum_var_type.ecl_sum_group_var,
        ecl_sum_var_type.ecl_sum_region_var, ecl_sum_var_type.ecl_sum_field_var,
        ecl_sum_var_type.ecl_sum_completion_var, ecl_sum_var_type.ecl_sum_misc_var,
        ecl_sum_var_type.ecl_sum_NOT_IMPLEMENTED_var]) ∧
    (∀ (ecl_sum_type : Type) (ecl_sum_iget_var_type : ecl_sum_iget_var_type_decl ecl_sum_type)
      (ecl_sum : ecl_sum_type) (index : Int),
      ecl_sum_iget_var_type ecl_sum index ∈
        [ecl_sum_var_type.ecl_sum_well_var, ecl_sum_var_type.ecl_sum_group_var,
          ecl_sum_var_type.ecl_sum_region_var, ecl_sum_var_type.ecl_sum_field_var,
          ecl_sum_var_type.ecl_sum_completion_var, ecl_sum_var_type.ecl_sum_misc_var,
          ecl_sum_var_type.ecl_sum_NOT_IMPLEMENTED_var]) := by
  have hall : ∀ v : ecl_sum_var_type,
      v ∈ [ecl_sum_var_type.ecl_sum_well_var, ecl_sum_var_type.ecl_sum_group_var,
        ecl_sum_var_type.ecl_sum_region_var, ecl_sum_var_type.ecl_sum_field_var,
        ecl_sum_var_type.ecl_sum_completion_var, ecl_sum_var_type.ecl_sum_misc_var,
        ecl_sum_var_type.ecl_sum_NOT_IMPLEMENTED_var] := by
    intro v
    cases v <;> decide
  exact ⟨by decide, hall, fun _ f s i => hall (f s i)⟩

/-! ### The query layer and the max/min scan -/

@[simp] theorem Result.ok_bind {α β : Type} (a : α) (f : α → Result β) :
    (Result.ok a >>= f) = f a := rfl

@[simp] theorem Result.fail_bind {α β : Type} (e : Failure) (f : α → Result β) :
    ((Result.fail e : Result α) >>= f) = Result.fail e := rfl

/-- A typed getter is key resolution followed by raw access. -/
theorem typed_get_eq (ecl_sum : ecl_sum_type) (step : Int) (k : Key) :
    typed_get ecl_sum step k
      = (KeyCatalog.resolve ecl_sum.catalog k >>= fun index =>
          ecl_sum_get_with_index ecl_sum step index) := by
  unfold typed_get KeyCatalog.resolve ecl_sum_get_with_index ValueStore.get
  cases KeyCatalog.find k ecl_sum.catalog 0 with
  | none => rfl
  | some slot =>
    have hs : ¬ ((slot : Int) < 0) := by omega
    by_cases h : step < 0
    · simp [h]
    · simp [h, hs]

/-- A typed getter on a key that does not resolve is `NotFound` at every step. -/
theorem typed_get_not_found (ecl_sum : ecl_sum_type) (step : Int) (k : Key)
    (h : KeyCatalog.resolve ecl_sum.catalog k = Result.fail Failure.NotFound) :
    typed_get ecl_sum step k = Result.fail Failure.NotFound := by
  rw [typed_get_eq, h, Result.fail_bind]

/-- A scan over steps whose cells are all absent leaves the running result as it was. -/
theorem max_min_scan_absent (store : List (List Cell)) (slot : Int) (flag : Bool) (n : Nat) :
    ∀ (step : Int) (acc : MaxMin),
      (∀ j : Int, step ≤ j → j < step + n →
        ValueStore.get store j slot = Result.ok Cell.absent) →
      max_min_scan store slot flag n step acc = Result.ok acc := by
  induction n with
  | zero => intro step acc _; rfl
  | succ n ih =>
    intro step acc h
    have h0 := h step (le_refl _) (by push_cast; omega)
    have h1 := ih (step + 1) acc (fun j hj1 hj2 => h j (by omega) (by push_cast; omega))
    simp only [max_min_scan, h0, MaxMin.add, h1]

/-- C11: each typed getter is key resolution composed with raw access:
`ecl_sum_get_well_var (set, step, well, var)` equals `ecl_sum_get_with_index (set, step, i)`
at the `i` of `ecl_sum_get_well_var_index (set, well, var)`, and fails as the resolver
fails; likewise for the group, region, field and well-completion getters. In the set with
well "W1" and the "WOPR" values 10.0, 20.0, 15.0 at the steps 0, 1, 2 the well getter at
step 1 returns 20.0. -/
theorem C11_typed_getters_compose :
    (∀ (ecl_sum : ecl_sum_type) (step : Int) (well var : String),
      ecl_sum_get_well_var ecl_sum step well var
        = (ecl_sum_get_well_var_index ecl_sum well var >>= fun index =>
            ecl_sum_get_with_index ecl_sum step index)) ∧
    (∀ (ecl_sum : ecl_sum_type) (step : Int) (group var : String),
      ecl_sum_get_group_var ecl_sum step group var
        = (ecl_sum_get_group_var_index ecl_sum group var >>= fun index =>
            ecl_sum_get_with_index ecl_sum step index)) ∧
    (∀ (ecl_sum : ecl_sum_type) (step : Int) (region_nr : Int) (var : String),
      ecl_sum_get_region_var ecl_sum step region_nr var
        = (ecl_sum_get_region_var_index ecl_sum region_nr var >>= fun index =>
            ecl_sum_get_with_index ecl_sum step index)) ∧
    (∀ (ecl_sum : ecl_sum_type) (step : Int) (var : String),
      ecl_sum_get_field_var ecl_sum step var
        = (ecl_sum_get_field_var_index ecl_sum var >>= fun index =>
            ecl_sum_get_with_index ecl_sum step index)) ∧
    (∀ (ecl_sum : ecl_sum_type) (step : Int) (well var : String) (cell_nr : Int),
      ecl_sum_get_well_completion_var ecl_sum step well var cell_nr
        = (ecl_sum_get_well_completion_var_index ecl_sum well var cell_nr >>= fun index =>
            ecl_sum_get_with_index ecl_sum step index)) ∧
    (∃ ecl_sum : ecl_sum_type, example_set = Result.ok ecl_sum ∧
      ecl_sum_get_well_var_index ecl_sum "W1" "WOPR" = Result.ok 0 ∧
      ecl_sum_get_with_index ecl_sum 1 0 = Result.ok (Cell.value 20) ∧
      ecl_sum_get_well_var ecl_sum 1 "W1" "WOPR" = Result.ok (Cell.value 20)) := by
  refine ⟨?_, ?_, ?_, ?_, ?_, ?_⟩
  · intro ecl_sum step well var
    exact typed_get_eq ecl_sum step (well_key well var)
  · intro ecl_sum step group var
    exact typed_get_eq ecl_sum step (group_key group var)
  · intro ecl_sum step region_nr var
    exact typed_get_eq ecl_sum step (region_key region_nr var)
  · intro ecl_sum step var
    exact typed_get_eq ecl_sum step (field_key var)
  · intro ecl_sum step well var cell_nr
    exact typed_get_eq ecl_sum step (well_completion_key well var cell_nr)
  · exact ⟨⟨[⟨well_key "W1" "WOPR", "SM3/DAY"⟩],
        [[Cell.value 10], [Cell.value 20], [Cell.value 15]]⟩,
      by decide, by decide, by decide, by decide⟩

/-- C12: when every cell of a requested variable in the step range is the absent
sentinel, `ecl_sum_max_min` reports the explicit "no data" for that variable, and not the
pair (0, 0), whatever the flag. -/
theorem C12_max_min_no_data (ecl_sum : ecl_sum_type) (variable_list : List Key)
    (first last : Int) (include_zero_as_valid : Bool) (i : Nat) (k : Key) (slot : Int)
    (hk : variable_list[i]? = some k)
    (hres : KeyCatalog.resolve ecl_sum.catalog k = Result.ok slot)
    (habs : ∀ step : Int, first ≤ step → step ≤ last →
      ValueStore.get ecl_sum.store step slot = Result.ok Cell.absent) :
    (ecl_sum_max_min ecl_sum variable_list first last include_zero_as_valid)[i]?
      = some (Result.ok MaxMin.no_data) ∧
    (ecl_sum_max_min ecl_sum variable_list first last include_zero_as_valid)[i]?
      ≠ some (Result.ok (MaxMin.pair 0 0)) := by
  have hscan := max_min_scan_absent ecl_sum.store slot include_zero_as_valid
    (last - first + 1).toNat first MaxMin.no_data
    (fun j hj1 hj2 => habs j hj1 (by omega))
  have hres1 : (ecl_sum_max_min ecl_sum variable_list first last include_zero_as_valid)[i]?
      = some (Result.ok MaxMin.no_data) := by
    simp only [ecl_sum_max_min, List.getElem?_map, hk, Option.map_some', hres, hscan]
  refine ⟨hres1, ?_⟩
  rw [hres1]
  decide

/-- C12, at the set with "WOPR" of well "W1" registered, three steps appended and no cell
set, over the steps 0 .. 2. -/
theorem C12_max_min_no_data_witness :
    (ecl_sum_max_min unset_set [well_key "W1" "WOPR"] 0 2 true)[0]?
      = some (Result.ok MaxMin.no_data) ∧
    (ecl_sum_max_min unset_set [well_key "W1" "WOPR"] 0 2 true)[0]?
      ≠ some (Result.ok (MaxMin.pair 0 0)) :=
  C12_max_min_no_data unset_set [well_key "W1" "WOPR"] 0 2 true 0 (well_key "W1" "WOPR") 0
    (by decide) (by decide)
    (by
      intro step h0 h2
      interval_cases step <;> decide)

end EclSum
